import Mathlib

/-!
# gclone: URL transformer, profile matcher and SSH config reconciler

A shallow embedding of the pure parts of `pkg/git/git.go`,
`pkg/git/profile_detection.go` and `cmd/ssh_config.go`.

Go strings are modelled as lists of characters (`Str`): the text is taken to
be valid UTF-8, on which the byte-level `strings` functions used by the source
(`HasPrefix`, `HasSuffix`, `Contains`, `Split`, `Join`, `TrimSuffix`) agree with
their character-level counterparts below.  A Go `map` is modelled as the list
of its entries in the order in which a `range` loop enumerates them.
-/

namespace Gclone

/-- A Go string, as the list of its characters. -/
abbrev Str := List Char

/-! ## The `strings` functions used by the source -/

/-- Go `strings.HasPrefix`. -/
def hasPrefix (s pre : Str) : Bool :=
  match pre, s with
  | [], _ => true
  | _ :: _, [] => false
  | p :: ps, c :: cs => if c = p then hasPrefix cs ps else false

/-- Go `strings.HasSuffix`. -/
def hasSuffix (s suf : Str) : Bool :=
  hasPrefix s.reverse suf.reverse

/-- Go `strings.Contains`: `sub` occurs in `s` as a contiguous run. -/
def contains (s sub : Str) : Bool :=
  match s with
  | [] => hasPrefix [] sub
  | c :: cs => hasPrefix (c :: cs) sub || contains cs sub

/-- Go `strings.TrimSuffix`. -/
def trimSuffix (s suf : Str) : Str :=
  if hasSuffix s suf then s.take (s.length - suf.length) else s

/-- Go `strings.Split(s, sep)` for a separator of one character: the pieces
between the occurrences of `sep`; always at least one piece. -/
def split (sep : Char) : Str → List Str
  | [] => [[]]
  | c :: cs =>
    if c = sep then [] :: split sep cs
    else
      match split sep cs with
      | [] => [[c]]
      | l :: ls => (c :: l) :: ls

/-- Go `strings.Join(parts, sep)`. -/
def join (sep : Str) : List Str → Str
  | [] => []
  | [a] => a
  | a :: b :: rest => a ++ sep ++ join sep (b :: rest)

/-- Go `unicode.IsSpace`: the Latin-1 spaces and the characters with the
Unicode White_Space property. -/
def isSpace (c : Char) : Bool :=
  let n := c.toNat
  n = 0x09 || n = 0x0A || n = 0x0B || n = 0x0C || n = 0x0D || n = 0x20 ||
  n = 0x85 || n = 0xA0 || n = 0x1680 || (0x2000 ≤ n && n ≤ 0x200A) ||
  n = 0x2028 || n = 0x2029 || n = 0x202F || n = 0x205F || n = 0x3000

/-- Go `strings.TrimSpace`: leading and trailing white space removed. -/
def trimSpace (s : Str) : Str :=
  ((s.dropWhile isSpace).reverse.dropWhile isSpace).reverse

/-! ## `pkg/config`: profiles -/

/-- A `config.Profile`; the `GitConfigs` map is the list of its entries. -/
structure Profile where
  Name : Str
  SSHHost : Str
  URLPatterns : List Str
  GitConfigs : List (Str × Str)
deriving DecidableEq, Repr, Inhabited

/-! ## `pkg/git/git.go`: `TransformGitURL` -/

/-- The regular expression `^git@([^:]+):(.+)$` of `TransformGitURL`, as
`FindStringSubmatch` evaluates it: the text starts with `git@`; group 1 is the
longest run of characters other than `:` (a negated class also matches a line
feed), it is not empty and a `:` follows it; group 2 is the rest of the text,
not empty and, since `.` does not match a line feed and `$` is the end of the
text, free of line feeds.  The result is the pair (group 1, group 2). -/
def sshRegexMatch (url : Str) : Option (Str × Str) :=
  match url with
  | 'g' :: 'i' :: 't' :: '@' :: rest =>
    let host := rest.takeWhile (fun c => c != ':')
    match rest.dropWhile (fun c => c != ':') with
    | ':' :: path =>
      if host.isEmpty || path.isEmpty || path.elem '\n' then none
      else some (host, path)
    | _ => none
  | _ => none

/-- The message of the error `TransformGitURL` returns. -/
def unsupportedURLError (url : Str) : Str :=
  "unsupported git URL format: ".toList ++ url ++ " (only SSH URLs are supported)".toList

/-- `TransformGitURL(url, profile)`: the returned URL and the error, `none`
for `nil`.  A `nil` profile pointer is `none`. -/
def TransformGitURL (url : Str) (profile : Option Profile) : Str × Option Str :=
  match profile with
  | none => (url, none)
  | some p =>
    if p.SSHHost = [] then (url, none)
    else
      match sshRegexMatch url with
      | some (_, path) => ("git@".toList ++ p.SSHHost ++ ":".toList ++ path, none)
      | none => (url, some (unsupportedURLError url))

/-! ## `pkg/git/profile_detection.go` -/

/-- Go `strings.SplitN(s, sep, 2)` for a separator of one character: the text
before the first `sep` and the text after it, or `s` alone when `sep` does not
occur. -/
def splitN2 (sep : Char) (s : Str) : List Str :=
  if s.elem sep then
    [s.takeWhile (fun c => c != sep), (s.dropWhile (fun c => c != sep)).drop 1]
  else [s]

/-- `NormalizeURL(url)`. -/
def NormalizeURL (url : Str) : Str :=
  if hasPrefix url "git@".toList then
    match splitN2 '@' url with
    | [_, host] => host
    | _ => url
  else url

/-- The inner loop of `DetectProfileForURL`: some pattern of the profile
occurs in the normalized URL. -/
def anyPatternMatches (normalizedURL : Str) : List Str → Bool
  | [] => false
  | pattern :: rest =>
    if contains normalizedURL pattern then true else anyPatternMatches normalizedURL rest

/-- The outer loop of `DetectProfileForURL` over the entries of the map, in
the order the `range` statement yields them. -/
def detectLoop (normalizedURL : Str) : List (Str × Profile) → Str × Bool
  | [] => ([], false)
  | (name, profile) :: rest =>
    if anyPatternMatches normalizedURL profile.URLPatterns then (name, true)
    else detectLoop normalizedURL rest

/-- `DetectProfileForURL(url, profiles)`; `profiles` lists the entries of the
map in enumeration order. -/
def DetectProfileForURL (url : Str) (profiles : List (Str × Profile)) : Str × Bool :=
  detectLoop (NormalizeURL url) profiles

/-! ## `cmd/ssh_config.go`: the secondary-file merge -/

/-- The fragment `sshConfig` that the `ssh-config` command generates from the
profile's display name, its SSH host and the identity file. -/
def sshConfigFragment (name sshHost identityFile : Str) : Str :=
  "# ".toList ++ name ++ " profile (added by gclone)\nHost ".toList ++ sshHost ++
  "\n  Hostname github.com\n  AddKeysToAgent yes\n  UseKeychain yes\n  IdentityFile ".toList ++
  identityFile ++ "\n".toList

/-- The `hostPattern` of the `ssh-config` command. -/
def hostPattern (sshHost : Str) : Str := "Host ".toList ++ sshHost

/-- The loop that removes the existing configuration of a host: `skip` is the
loop's flag, the result is what the loop appends to `newLines`. -/
def removeHostLines (pat : Str) : Bool → List Str → List Str
  | _, [] => []
  | skip, line :: rest =>
    let trimmedLine := trimSpace line
    if hasPrefix trimmedLine pat then removeHostLines pat true rest
    else
      let skip := if skip && hasPrefix trimmedLine "Host ".toList then false else skip
      if !skip then line :: removeHostLines pat skip rest
      else removeHostLines pat skip rest

/-- The content of the secondary file after the removal step: unchanged when
`hostPattern` does not occur in it. -/
def removeExistingHost (existingContent sshHost : Str) : Str :=
  if contains existingContent (hostPattern sshHost) then
    join "\n".toList (removeHostLines (hostPattern sshHost) false (split '\n' existingContent))
  else existingContent

/-- The `newContent` the `ssh-config` command writes to the secondary file.
`existing` is the content of the file, `none` when the file does not exist;
`confirmed` is the user's answer to the update prompt, asked only when
`hostPattern` occurs in the file.  The result is `none` when the command stops
with "Operation cancelled" and writes nothing. -/
def mergeFragment (existing : Option Str) (sshHost sshConfig : Str) (confirmed : Bool) :
    Option Str :=
  match existing with
  | none => some sshConfig
  | some existingContent =>
    if contains existingContent (hostPattern sshHost) && !confirmed then none
    else
      let existingContent := removeExistingHost existingContent sshHost
      if existingContent != [] && !hasSuffix existingContent "\n".toList then
        some (existingContent ++ "\n".toList ++ sshConfig)
      else some (existingContent ++ sshConfig)

/-! ## `cmd/ssh_config.go`: `ensureIncludeDirective` -/

/-- The `includeDirective` of `ensureIncludeDirective`. -/
def includeDirective (includePath : Str) : Str := "Include ".toList ++ includePath

/-- The loop of `ensureIncludeDirective` from index `i` on, `includeAdded`
being the loop's flag and the list the lines `lines[i:]`: the result is what
the loop appends to `newLines` and the final value of the flag.  The test
`i+1 < len(lines)` holds exactly when a line follows the current one. -/
def includeLoop (directive : Str) : Nat → Bool → List Str → List Str × Bool
  | _, includeAdded, [] => ([], includeAdded)
  | i, includeAdded, line :: rest =>
    let trimmedLine := trimSpace line
    if hasPrefix trimmedLine "Include ".toList then
      let lastInclude :=
        match rest with
        | [] => false
        | next :: _ => !hasPrefix (trimSpace next) "Include ".toList
      if lastInclude then
        let r := includeLoop directive (i + 1) true rest
        (line :: directive :: r.1, r.2)
      else
        let r := includeLoop directive (i + 1) includeAdded rest
        (line :: r.1, r.2)
    else if !includeAdded && decide (i > 0) && !hasPrefix trimmedLine "#".toList
        && trimmedLine != [] then
      let r := includeLoop directive (i + 1) true rest
      (directive :: line :: r.1, r.2)
    else
      let r := includeLoop directive (i + 1) includeAdded rest
      (line :: r.1, r.2)

/-- The content of the primary SSH config after
`ensureIncludeDirective(sshConfigPath, includePath)`; `primary` is the content
of the file before the call, `none` when the file does not exist.  When the
function returns without writing, the content is the one before the call. -/
def ensureIncludeDirective (primary : Option Str) (includePath : Str) : Str :=
  match primary with
  | some content =>
    if contains content (includeDirective includePath) then content
    else
      let r := includeLoop (includeDirective includePath) 0 false (split '\n' content)
      let newLines := if !r.2 then includeDirective includePath :: r.1 else r.1
      join "\n".toList newLines
  | none => includeDirective includePath ++ "\n".toList

/-! ## `pkg/git/git.go`: `CloneRepository` and `GetRepositoryName` -/

/-- The repository name `CloneRepository` extracts from the URL: the last
piece of `strings.Split(url, "/")` with the suffix `.git` trimmed. -/
def repoNameOfURL (url : Str) : Str :=
  trimSuffix ((split '/' url).getLastD []) ".git".toList

/-- The `repoPath` that `CloneRepository(url, destination, profile, extraArgs)`
hands to `ApplyGitConfigs`, the `git clone` command having succeeded; `none`
when the function returns without applying git configs (the URL is rejected,
the profile is `nil` or it has no git configs). -/
def CloneRepository_repoPath (url destination : Str) (profile : Option Profile) : Option Str :=
  match profile with
  | none => none
  | some p =>
    match TransformGitURL url (some p) with
    | (_, some _) => none
    | (url, none) =>
      let destination := if destination != [] then destination else repoNameOfURL url
      if p.GitConfigs.length > 0 then
        let repoPath := destination
        if repoPath = [] then some (repoNameOfURL url) else some repoPath
      else none

/-- `GetRepositoryName(url)`. -/
def GetRepositoryName (url : Str) : Str :=
  let url := trimSuffix url ".git".toList
  if contains url ":".toList then
    let parts := split ':' url
    if parts.length > 1 then
      let subParts := split '/' (parts.getD 1 [])
      if subParts.length > 0 then subParts.getLastD [] else []
    else []
  else []

/-! ## The URL forms of the specification -/

/-- The SSH shorthand form as the specification words it,
`<anything-without-colon>@<host>:<path>`: a non-empty user without `:`, a
non-empty host without `:` and a non-empty path. -/
def IsSSHShorthand (url : Str) : Prop :=
  ∃ user host path : Str, url = user ++ "@".toList ++ host ++ ":".toList ++ path ∧
    user ≠ [] ∧ ':' ∉ user ∧ host ≠ [] ∧ ':' ∉ host ∧ path ≠ []

/-- The form `git@<host>:<path>`: a non-empty host without `:` and a
non-empty path without a line feed. -/
def IsGitSSHURL (url : Str) : Prop :=
  ∃ host path : Str, url = "git@".toList ++ host ++ ":".toList ++ path ∧
    host ≠ [] ∧ ':' ∉ host ∧ path ≠ [] ∧ '\n' ∉ path

/-! ## Notions used to state the claims on `ensureIncludeDirective` -/

/-- The list `out` is the list `lines` with copies of the line `d` inserted:
every element of `lines` is kept, in order, and every other element of `out`
is `d`. -/
inductive Inserted (d : Str) : List Str → List Str → Prop
  | nil : Inserted d [] []
  | keep (x : Str) {lines out : List Str} : Inserted d lines out → Inserted d (x :: lines) (x :: out)
  | ins {lines out : List Str} : Inserted d lines out → Inserted d lines (d :: out)

/-- A line of the primary config is an `Include` line for the loop of
`ensureIncludeDirective`: its trimmed content starts with `Include `. -/
def isIncludeLine (line : Str) : Bool := hasPrefix (trimSpace line) "Include ".toList

/-- A line is blank or a `#` comment: its trimmed content is empty or starts
with `#`. -/
def isBlankOrComment (line : Str) : Bool :=
  hasPrefix (trimSpace line) "#".toList || trimSpace line == []

/-! ## Lemmas on the regular expression -/

theorem takeWhile_dropWhile_colon (h p : Str) (hc : ':' ∉ h) :
    (h ++ ':' :: p).takeWhile (fun c => c != ':') = h ∧
    (h ++ ':' :: p).dropWhile (fun c => c != ':') = ':' :: p := by
  induction h with
  | nil => simp
  | cons x xs ih =>
    simp only [List.mem_cons, not_or] at hc
    have hx : (x != ':') = true := by simpa using fun e => hc.1 e.symm
    simp [List.takeWhile, List.dropWhile, hx, ih hc.2]

theorem not_mem_takeWhile_colon (s : Str) : ':' ∉ s.takeWhile (fun c => c != ':') := by
  intro hmem
  have := List.mem_takeWhile_imp hmem
  simp at this

theorem sshRegexMatch_git (h p : Str) (hh : h ≠ []) (hc : ':' ∉ h) (hp : p ≠ [])
    (hn : '\n' ∉ p) :
    sshRegexMatch ("git@".toList ++ h ++ ":".toList ++ p) = some (h, p) := by
  have e : ("git@".toList ++ h ++ ":".toList ++ p : Str)
      = 'g' :: 'i' :: 't' :: '@' :: (h ++ ':' :: p) := by simp
  rw [e]
  obtain ⟨h1, h2⟩ := takeWhile_dropWhile_colon h p hc
  simp only [sshRegexMatch, h1, h2]
  simp [hh, hp, hn]

theorem sshRegexMatch_eq_some (url h p : Str) (hm : sshRegexMatch url = some (h, p)) :
    url = "git@".toList ++ h ++ ":".toList ++ p ∧ h ≠ [] ∧ ':' ∉ h ∧ p ≠ [] ∧ '\n' ∉ p := by
  unfold sshRegexMatch at hm
  split at hm
  · rename_i rest
    have htd := List.takeWhile_append_dropWhile (fun c => c != ':') rest
    have hnc := not_mem_takeWhile_colon rest
    split at hm
    · rename_i path hd
      dsimp only at hm
      split at hm
      · exact absurd hm (by simp)
      · rename_i hcond
        simp only [Option.some.injEq, Prod.mk.injEq] at hm
        obtain ⟨e1, e2⟩ := hm
        subst e2
        rw [e1] at htd hnc
        rw [hd] at htd
        simp only [Bool.or_eq_true, not_or, List.isEmpty_iff, List.elem_eq_mem,
          decide_eq_true_eq] at hcond
        refine ⟨?_, ?_, hnc, hcond.1.2, hcond.2⟩
        · rw [← htd]; simp
        · intro e; apply hcond.1.1; rw [e1]; exact e
    · exact absurd hm (by simp)
  · exact absurd hm (by simp)

theorem sshRegexMatch_isSome_iff (url : Str) :
    (sshRegexMatch url).isSome = true ↔ IsGitSSHURL url := by
  constructor
  · intro hs
    obtain ⟨⟨h, p⟩, hm⟩ := Option.isSome_iff_exists.mp hs
    obtain ⟨e, h1, h2, h3, h4⟩ := sshRegexMatch_eq_some url h p hm
    exact ⟨h, p, e, h1, h2, h3, h4⟩
  · rintro ⟨h, p, e, h1, h2, h3, h4⟩
    rw [e, sshRegexMatch_git h p h1 h2 h3 h4]; rfl

theorem git_prefix_user (user rest r : Str)
    (e : user ++ '@' :: rest = 'g' :: 'i' :: 't' :: '@' :: r) :
    user = "git".toList ∨ '@' ∈ user := by
  match user, e with
  | [], e => simp at e
  | [a], e => simp at e
  | [a, b], e => simp at e
  | [a, b, c], e =>
    simp only [List.cons_append, List.nil_append, List.cons.injEq] at e
    left; rw [e.1, e.2.1, e.2.2.1]; rfl
  | a :: b :: c :: d :: u, e =>
    simp only [List.cons_append, List.cons.injEq] at e
    right; rw [e.2.2.2.1]; simp

theorem sshRegexMatch_no_git (user rest : Str) (hu : user ≠ "git".toList) (ha : '@' ∉ user) :
    sshRegexMatch (user ++ "@".toList ++ rest) = none := by
  have e : (user ++ "@".toList ++ rest : Str) = user ++ '@' :: rest := by simp
  rw [e]
  unfold sshRegexMatch
  split
  · rename_i r heq
    rcases git_prefix_user user rest r heq with h | h
    · exact absurd h hu
    · exact absurd h ha
  · rfl

/-! ## Lemmas on the string functions -/

theorem hasPrefix_iff (s pre : Str) : hasPrefix s pre = true ↔ pre <+: s := by
  induction pre generalizing s with
  | nil => simp [hasPrefix]
  | cons p ps ih =>
    cases s with
    | nil => simp [hasPrefix]
    | cons c cs =>
      simp only [hasPrefix, List.cons_prefix_cons]
      by_cases h : c = p
      · simp [h, ih]
      · have h2 : ¬ p = c := fun e => h e.symm
        simp [h, h2]

theorem hasPrefix_self (s : Str) : hasPrefix s s = true :=
  (hasPrefix_iff s s).mpr (List.prefix_refl s)

theorem hasSuffix_iff (s suf : Str) : hasSuffix s suf = true ↔ suf <:+ s := by
  unfold hasSuffix
  rw [hasPrefix_iff, List.reverse_prefix]

theorem contains_iff (s sub : Str) : contains s sub = true ↔ sub <:+: s := by
  induction s with
  | nil =>
    simp only [contains, hasPrefix_iff]
    constructor
    · intro h; exact h.isInfix
    · intro h
      have := List.eq_nil_of_infix_nil h
      subst this; exact List.prefix_refl _
  | cons c cs ih =>
    simp only [contains, Bool.or_eq_true, hasPrefix_iff, ih, List.infix_cons_iff]

theorem hasPrefix_cons_ne (c p : Char) (s ps : Str) (h : c ≠ p) :
    hasPrefix (c :: s) (p :: ps) = false := by
  simp [hasPrefix, h]

/-! ### `split` and `join` -/

theorem split_ne_nil (sep : Char) (s : Str) : split sep s ≠ [] := by
  cases s with
  | nil => simp [split]
  | cons c cs =>
    unfold split
    split
    · simp
    · split <;> simp

theorem split_cons_ne (sep c : Char) (cs : Str) (h : c ≠ sep) :
    ∃ l ls, split sep cs = l :: ls ∧ split sep (c :: cs) = (c :: l) :: ls := by
  cases hs : split sep cs with
  | nil => exact absurd hs (split_ne_nil sep cs)
  | cons l ls =>
    refine ⟨l, ls, rfl, ?_⟩
    rw [split]
    simp [h, hs]

theorem split_no_sep (sep : Char) (s : Str) (h : sep ∉ s) : split sep s = [s] := by
  induction s with
  | nil => rfl
  | cons c cs ih =>
    simp only [List.mem_cons, not_or] at h
    obtain ⟨l, ls, h1, h2⟩ := split_cons_ne sep c cs (fun e => h.1 e.symm)
    rw [h2]
    rw [ih h.2] at h1
    simp only [List.cons.injEq] at h1
    rw [← h1.1, ← h1.2]

theorem split_append_sep (sep : Char) (a b : Str) :
    split sep (a ++ sep :: b) = split sep a ++ split sep b := by
  induction a with
  | nil => simp [split]
  | cons c cs ih =>
    by_cases h : c = sep
    · subst h
      simp [split, ih]
    · obtain ⟨l, ls, h1, h2⟩ := split_cons_ne sep c cs h
      obtain ⟨l', ls', h1', h2'⟩ := split_cons_ne sep c (cs ++ sep :: b) h
      rw [List.cons_append, h2', h2]
      rw [ih, h1] at h1'
      simp only [List.cons_append, List.cons.injEq] at h1'
      rw [← h1'.1, ← h1'.2]
      rfl

theorem split_mem_no_sep (sep : Char) (s l : Str) (h : l ∈ split sep s) : sep ∉ l := by
  induction s generalizing l with
  | nil =>
    simp only [split, List.mem_singleton] at h
    subst h; simp
  | cons c cs ih =>
    by_cases hc : c = sep
    · subst hc
      simp only [split, if_true, List.mem_cons] at h
      rcases h with h | h
      · subst h; simp
      · exact ih l h
    · obtain ⟨l0, ls, h1, h2⟩ := split_cons_ne sep c cs hc
      rw [h2] at h
      simp only [List.mem_cons] at h
      rcases h with h | h
      · subst h
        have := ih l0 (by rw [h1]; exact List.mem_cons_self _ _)
        simp only [List.mem_cons, not_or]
        exact ⟨fun e => hc e.symm, this⟩
      · exact ih l (by rw [h1]; exact List.mem_cons_of_mem _ h)

theorem split_head_initial (sep : Char) (s l : Str) (ls : List Str)
    (h : split sep s = l :: ls) : l <+: s := by
  induction s generalizing l ls with
  | nil =>
    simp only [split, List.cons.injEq] at h
    rw [← h.1]
  | cons c cs ih =>
    by_cases hc : c = sep
    · subst hc
      simp only [split, if_true, List.cons.injEq] at h
      rw [← h.1]; exact List.nil_prefix
    · obtain ⟨l0, ls0, h1, h2⟩ := split_cons_ne sep c cs hc
      rw [h2] at h
      simp only [List.cons.injEq] at h
      rw [← h.1, List.cons_prefix_cons]
      exact ⟨rfl, ih l0 ls0 h1⟩

theorem split_mem_part (sep : Char) (s l : Str) (h : l ∈ split sep s) : l <:+: s := by
  induction s generalizing l with
  | nil =>
    simp only [split, List.mem_singleton] at h
    subst h; exact List.infix_refl _
  | cons c cs ih =>
    by_cases hc : c = sep
    · subst hc
      simp only [split, if_true, List.mem_cons] at h
      rcases h with h | h
      · subst h; exact List.nil_infix
      · exact (ih l h).trans (List.suffix_cons _ _).isInfix
    · obtain ⟨l0, ls, h1, h2⟩ := split_cons_ne sep c cs hc
      rcases List.mem_cons.mp (h2 ▸ h) with h | h
      · exact (split_head_initial sep (c :: cs) l ls (by rw [h2, h])).isInfix
      · exact (ih l (by rw [h1]; exact List.mem_cons_of_mem _ h)).trans
          (List.suffix_cons _ _).isInfix

theorem split_join (sep : Char) (ls : List Str) (hne : ls ≠ [])
    (hsep : ∀ l ∈ ls, sep ∉ l) : split sep (join [sep] ls) = ls := by
  induction ls with
  | nil => exact absurd rfl hne
  | cons a rest ih =>
    cases rest with
    | nil =>
      simp only [join]
      exact split_no_sep sep a (hsep a (List.mem_cons_self _ _))
    | cons b rest2 =>
      have e : join [sep] (a :: b :: rest2) = a ++ sep :: join [sep] (b :: rest2) := by
        simp [join]
      rw [e, split_append_sep, split_no_sep sep a (hsep a (List.mem_cons_self _ _)),
        ih (by simp) (fun l hl => hsep l (List.mem_cons_of_mem _ hl))]
      rfl

/-! ### `trimSpace` -/

theorem dropWhile_concat_keep (q : Char → Bool) (l : Str) (c : Char) (h : q c = false) :
    ∃ t, (l ++ [c]).dropWhile q = t ++ [c] := by
  induction l with
  | nil => exact ⟨[], by simp [List.dropWhile, h]⟩
  | cons x xs ih =>
    by_cases hx : q x = true
    · obtain ⟨t, ht⟩ := ih
      exact ⟨t, by simp [List.dropWhile, hx, ht]⟩
    · exact ⟨x :: xs, by simp [List.dropWhile, hx]⟩

theorem trimSpace_cons_nonspace (c : Char) (s : Str) (h : isSpace c = false) :
    ∃ t, trimSpace (c :: s) = c :: t := by
  obtain ⟨t, ht⟩ := dropWhile_concat_keep isSpace s.reverse c h
  refine ⟨t.reverse, ?_⟩
  simp only [trimSpace, List.dropWhile, h, List.reverse_cons, ht]
  simp

theorem trimSpace_cons_space (c : Char) (s : Str) (h : isSpace c = true) :
    trimSpace (c :: s) = trimSpace s := by
  simp [trimSpace, List.dropWhile, h]

theorem trimSpace_part (s : Str) : trimSpace s <:+: s := by
  unfold trimSpace
  have h1 : (s.dropWhile isSpace) <:+ s := List.dropWhile_suffix _
  have h2 : ((s.dropWhile isSpace).reverse.dropWhile isSpace) <:+ (s.dropWhile isSpace).reverse :=
    List.dropWhile_suffix _
  have h3 : ((s.dropWhile isSpace).reverse.dropWhile isSpace).reverse <+: s.dropWhile isSpace := by
    rw [← List.reverse_suffix, List.reverse_reverse]; exact h2
  exact h3.isInfix.trans h1.isInfix

theorem trimSpace_keep (c d : Char) (m : Str) (hc : isSpace c = false) (hd : isSpace d = false) :
    trimSpace (c :: (m ++ [d])) = c :: (m ++ [d]) := by
  simp [trimSpace, List.dropWhile, hc, hd]

theorem trimSpace_nil : trimSpace [] = [] := rfl

/-! ### The removal loop -/

theorem removeHostLines_mem (pat : Str) (skip : Bool) (lines : List Str) (l : Str)
    (h : l ∈ removeHostLines pat skip lines) :
    l ∈ lines ∧ hasPrefix (trimSpace l) pat = false := by
  induction lines generalizing skip with
  | nil => simp [removeHostLines] at h
  | cons line rest ih =>
    unfold removeHostLines at h
    dsimp only at h
    by_cases hp : hasPrefix (trimSpace line) pat = true
    · rw [if_pos hp] at h
      exact ⟨List.mem_cons_of_mem _ (ih true h).1, (ih true h).2⟩
    · rw [if_neg hp] at h
      generalize (if (skip && hasPrefix (trimSpace line) "Host ".toList) = true then false
        else skip) = sk at h
      cases sk with
      | true =>
        simp only [Bool.not_true, Bool.false_eq_true, if_false] at h
        exact ⟨List.mem_cons_of_mem _ (ih true h).1, (ih true h).2⟩
      | false =>
        simp only [Bool.not_false, if_true] at h
        rcases List.mem_cons.mp h with h | h
        · subst h
          exact ⟨List.mem_cons_self _ _, by simpa using hp⟩
        · exact ⟨List.mem_cons_of_mem _ (ih false h).1, (ih false h).2⟩

/-! ### The detection loops -/

theorem anyPatternMatches_iff (n : Str) (pats : List Str) :
    anyPatternMatches n pats = true ↔ ∃ pat ∈ pats, pat <:+: n := by
  induction pats with
  | nil => simp [anyPatternMatches]
  | cons p ps ih =>
    unfold anyPatternMatches
    by_cases h : contains n p = true
    · simp only [h, if_true, true_iff]
      exact ⟨p, List.mem_cons_self _ _, (contains_iff n p).mp h⟩
    · have hn : ¬ p <:+: n := fun hi => h ((contains_iff n p).mpr hi)
      simp only [h, if_false, ih, List.mem_cons, Bool.false_eq_true]
      constructor
      · rintro ⟨pat, hp, hi⟩; exact ⟨pat, Or.inr hp, hi⟩
      · rintro ⟨pat, hp | hp, hi⟩
        · subst hp; exact absurd hi hn
        · exact ⟨pat, hp, hi⟩

theorem detectLoop_found_iff (n : Str) (ps : List (Str × Profile)) :
    (detectLoop n ps).2 = true ↔ ∃ e ∈ ps, anyPatternMatches n e.2.URLPatterns = true := by
  induction ps with
  | nil =>
    simp only [detectLoop, Bool.false_eq_true, false_iff]
    rintro ⟨e, he, _⟩
    exact absurd he (List.not_mem_nil e)
  | cons e rest ih =>
    obtain ⟨name, profile⟩ := e
    unfold detectLoop
    by_cases h : anyPatternMatches n profile.URLPatterns = true
    · simp only [h, if_true, true_iff]
      exact ⟨(name, profile), List.mem_cons_self _ _, h⟩
    · simp only [h, if_false, Bool.false_eq_true]
      rw [ih]
      constructor
      · rintro ⟨e, he, hm⟩
        exact ⟨e, List.mem_cons_of_mem _ he, hm⟩
      · rintro ⟨e, he, hm⟩
        rcases List.mem_cons.mp he with he | he
        · subst he; exact absurd hm h
        · exact ⟨e, he, hm⟩

theorem detectLoop_key (n : Str) (ps : List (Str × Profile)) (h : (detectLoop n ps).2 = true) :
    ∃ e ∈ ps, e.1 = (detectLoop n ps).1 ∧ anyPatternMatches n e.2.URLPatterns = true := by
  induction ps with
  | nil => exact absurd h (by simp only [detectLoop]; exact Bool.false_ne_true)
  | cons e rest ih =>
    obtain ⟨name, profile⟩ := e
    unfold detectLoop at h ⊢
    by_cases hm : anyPatternMatches n profile.URLPatterns = true
    · simp only [hm, if_true]
      exact ⟨(name, profile), List.mem_cons_self _ _, rfl, hm⟩
    · simp only [hm, if_false, Bool.false_eq_true] at h ⊢
      obtain ⟨e, he, h1, h2⟩ := ih h
      exact ⟨e, List.mem_cons_of_mem _ he, h1, h2⟩

theorem detectLoop_not_found (n : Str) (ps : List (Str × Profile))
    (h : (detectLoop n ps).2 = false) : detectLoop n ps = ([], false) := by
  induction ps with
  | nil => rfl
  | cons e rest ih =>
    obtain ⟨name, profile⟩ := e
    unfold detectLoop at h ⊢
    by_cases hm : anyPatternMatches n profile.URLPatterns = true
    · rw [if_pos hm] at h; exact absurd h (by simp)
    · simp only [hm, if_false, Bool.false_eq_true] at h ⊢
      exact ih h

/-! ### Lines of the generated fragment and of the retained text -/

theorem fragment_lines (name h idf : Str) (hn : '\n' ∉ name) (hh : '\n' ∉ h)
    (hi : '\n' ∉ idf) :
    split '\n' (sshConfigFragment name h idf) =
      ["# ".toList ++ name ++ " profile (added by gclone)".toList,
       "Host ".toList ++ h,
       "  Hostname github.com".toList,
       "  AddKeysToAgent yes".toList,
       "  UseKeychain yes".toList,
       "  IdentityFile ".toList ++ idf,
       []] := by
  have e : sshConfigFragment name h idf =
      ("# ".toList ++ name ++ " profile (added by gclone)".toList) ++ '\n' ::
      (("Host ".toList ++ h) ++ '\n' ::
      ("  Hostname github.com".toList ++ '\n' ::
      ("  AddKeysToAgent yes".toList ++ '\n' ::
      ("  UseKeychain yes".toList ++ '\n' ::
      (("  IdentityFile ".toList ++ idf) ++ '\n' :: []))))) := by
    simp [sshConfigFragment]
  have n1 : '\n' ∉ ("# ".toList ++ name ++ " profile (added by gclone)".toList : Str) := by
    simp [hn]
  have n2 : '\n' ∉ ("Host ".toList ++ h : Str) := by simp [hh]
  have n3 : '\n' ∉ ("  Hostname github.com".toList : Str) := by decide
  have n4 : '\n' ∉ ("  AddKeysToAgent yes".toList : Str) := by decide
  have n5 : '\n' ∉ ("  UseKeychain yes".toList : Str) := by decide
  have n6 : '\n' ∉ ("  IdentityFile ".toList ++ idf : Str) := by simp [hi]
  rw [e]
  simp only [split_append_sep, split_no_sep _ _ n1, split_no_sep _ _ n2, split_no_sep _ _ n3,
    split_no_sep _ _ n4, split_no_sep _ _ n5, split_no_sep _ _ n6]
  rfl

theorem hostLine_matches (h : Str) (hh : h ≠ []) (hws : ∀ c ∈ h, isSpace c = false) :
    hasPrefix (trimSpace ("Host ".toList ++ h)) (hostPattern h) = true := by
  have e : ("Host ".toList ++ h : Str) = 'H' :: ("ost ".toList ++ h.dropLast ++ [h.getLast hh]) := by
    have := List.dropLast_append_getLast hh
    conv_lhs => rw [← this]
    simp
  have hk := trimSpace_keep 'H' (h.getLast hh) ("ost ".toList ++ h.dropLast) (by decide)
    (hws _ (List.getLast_mem hh))
  rw [e, hk, ← e]
  exact hasPrefix_self _

theorem hasPrefix_trimSpace_head (c : Char) (s pat : Str) (hc : isSpace c = false)
    (hH : c ≠ 'H') : hasPrefix (trimSpace (c :: s)) ('H' :: pat) = false := by
  obtain ⟨t, ht⟩ := trimSpace_cons_nonspace c s hc
  rw [ht]
  exact hasPrefix_cons_ne c 'H' t pat hH

theorem fragment_host_count (name h idf : Str) (hh : h ≠ [])
    (hws : ∀ c ∈ h, isSpace c = false) (hn : '\n' ∉ name) (hi : '\n' ∉ idf) :
    ((split '\n' (sshConfigFragment name h idf)).filter
      (fun l => hasPrefix (trimSpace l) (hostPattern h))).length = 1 := by
  have hnl : '\n' ∉ h := fun hm => by
    have := hws _ hm
    exact absurd this (by decide)
  rw [fragment_lines name h idf hn hnl hi]
  have hp : hostPattern h = 'H' :: ("ost ".toList ++ h) := by simp [hostPattern]
  have m1 : hasPrefix (trimSpace ("# ".toList ++ name ++ " profile (added by gclone)".toList))
      (hostPattern h) = false := by
    rw [hp]
    exact hasPrefix_trimSpace_head '#' _ _ (by decide) (by decide)
  have m2 := hostLine_matches h hh hws
  have m3 : hasPrefix (trimSpace "  Hostname github.com".toList) (hostPattern h) = false := by
    have : trimSpace "  Hostname github.com".toList = "Hostname github.com".toList := by decide
    rw [this, hp]
    simp [hasPrefix]
  have m4 : hasPrefix (trimSpace "  AddKeysToAgent yes".toList) (hostPattern h) = false := by
    have : trimSpace "  AddKeysToAgent yes".toList = "AddKeysToAgent yes".toList := by decide
    rw [this, hp]
    simp [hasPrefix]
  have m5 : hasPrefix (trimSpace "  UseKeychain yes".toList) (hostPattern h) = false := by
    have : trimSpace "  UseKeychain yes".toList = "UseKeychain yes".toList := by decide
    rw [this, hp]
    simp [hasPrefix]
  have m6 : hasPrefix (trimSpace ("  IdentityFile ".toList ++ idf)) (hostPattern h) = false := by
    have e : ("  IdentityFile ".toList ++ idf : Str)
        = ' ' :: ' ' :: 'I' :: ("dentityFile ".toList ++ idf) := by simp
    rw [e, trimSpace_cons_space _ _ (by decide), trimSpace_cons_space _ _ (by decide), hp]
    exact hasPrefix_trimSpace_head 'I' _ _ (by decide) (by decide)
  have m7 : hasPrefix (trimSpace []) (hostPattern h) = false := by
    rw [hp]; rfl
  simp only [List.filter_cons, List.filter_nil, m1, m2, m3, m4, m5, m6, m7, if_true, if_false,
    Bool.false_eq_true, List.length_cons, List.length_nil]

theorem removeExistingHost_lines_clean (existing h l : Str)
    (hl : l ∈ split '\n' (removeExistingHost existing h)) :
    hasPrefix (trimSpace l) (hostPattern h) = false := by
  have hpne : hasPrefix (trimSpace []) (hostPattern h) = false := by
    simp [hostPattern, hasPrefix, trimSpace]
  unfold removeExistingHost at hl
  by_cases hc : contains existing (hostPattern h) = true
  · rw [if_pos hc] at hl
    by_cases hnil : removeHostLines (hostPattern h) false (split '\n' existing) = []
    · rw [hnil] at hl
      simp only [join, split, List.mem_singleton] at hl
      subst hl
      exact hpne
    · have hsj := split_join '\n' _ hnil (fun l0 hl0 =>
        split_mem_no_sep '\n' existing l0 (removeHostLines_mem _ _ _ _ hl0).1)
      have e : ("\n".toList : Str) = ['\n'] := rfl
      rw [e, hsj] at hl
      exact (removeHostLines_mem _ _ _ _ hl).2
  · rw [if_neg hc] at hl
    rw [← Bool.not_eq_true]
    intro hm
    apply hc
    rw [contains_iff]
    exact ((hasPrefix_iff _ _).mp hm).isInfix.trans
      ((trimSpace_part l).trans (split_mem_part '\n' existing l hl))

theorem split_append_block (kept block : Str) (hk : kept = [] ∨ ['\n'] <:+ kept) :
    split '\n' (kept ++ block) = (split '\n' kept).dropLast ++ split '\n' block := by
  rcases hk with hk | ⟨k, hk⟩
  · subst hk; rfl
  · subst hk
    have e1 : k ++ ['\n'] ++ block = k ++ '\n' :: block := by simp
    have e2 : k ++ ['\n'] = k ++ '\n' :: [] := rfl
    rw [e1, split_append_sep, e2, split_append_sep]
    have e3 : split '\n' [] = [[]] := rfl
    rw [e3, List.dropLast_concat]

theorem filter_split_append_block (kept block : Str) (q : Str → Bool)
    (hk : kept = [] ∨ ['\n'] <:+ kept) (hclean : ∀ l ∈ split '\n' kept, q l = false) :
    (split '\n' (kept ++ block)).filter q = (split '\n' block).filter q := by
  rw [split_append_block kept block hk, List.filter_append]
  have : (split '\n' kept).dropLast.filter q = [] := by
    rw [List.filter_eq_nil_iff]
    intro l hl
    rw [hclean l (List.dropLast_subset _ hl)]
    exact Bool.false_ne_true
  rw [this, List.nil_append]

/-! ### The loop of `ensureIncludeDirective` -/

theorem includeLoop_cons (d : Str) (i : Nat) (a : Bool) (line : Str) (rest : List Str) :
    includeLoop d i a (line :: rest) =
      if hasPrefix (trimSpace line) "Include ".toList = true then
        if (match rest with
            | [] => false
            | next :: _ => !hasPrefix (trimSpace next) "Include ".toList) = true then
          (line :: d :: (includeLoop d (i + 1) true rest).1, (includeLoop d (i + 1) true rest).2)
        else (line :: (includeLoop d (i + 1) a rest).1, (includeLoop d (i + 1) a rest).2)
      else
        if (!a && decide (i > 0) && !hasPrefix (trimSpace line) "#".toList
            && trimSpace line != []) = true then
          (d :: line :: (includeLoop d (i + 1) true rest).1, (includeLoop d (i + 1) true rest).2)
        else (line :: (includeLoop d (i + 1) a rest).1, (includeLoop d (i + 1) a rest).2) := by
  cases rest <;> rfl

theorem includeLoop_include_end (d : Str) (i : Nat) (a : Bool) (line : Str)
    (h : isIncludeLine line = true) : includeLoop d i a [line] = ([line], a) := by
  unfold isIncludeLine at h
  rw [includeLoop_cons]
  simp only [h, if_true, Bool.false_eq_true, if_false]
  rfl

theorem includeLoop_include_last (d : Str) (i : Nat) (a : Bool) (line next : Str)
    (rest : List Str) (h : isIncludeLine line = true) (hn : isIncludeLine next = false) :
    includeLoop d i a (line :: next :: rest) =
      (line :: d :: (includeLoop d (i + 1) true (next :: rest)).1,
        (includeLoop d (i + 1) true (next :: rest)).2) := by
  unfold isIncludeLine at h hn
  rw [includeLoop_cons]
  simp only [h, hn, if_true, Bool.not_false]

theorem includeLoop_include_more (d : Str) (i : Nat) (a : Bool) (line next : Str)
    (rest : List Str) (h : isIncludeLine line = true) (hn : isIncludeLine next = true) :
    includeLoop d i a (line :: next :: rest) =
      (line :: (includeLoop d (i + 1) a (next :: rest)).1,
        (includeLoop d (i + 1) a (next :: rest)).2) := by
  unfold isIncludeLine at h hn
  rw [includeLoop_cons]
  simp only [h, hn, if_true, Bool.not_true, Bool.false_eq_true, if_false]

theorem includeLoop_insert (d : Str) (i : Nat) (line : Str) (rest : List Str)
    (h : isIncludeLine line = false) (hi : 0 < i) (hb : isBlankOrComment line = false) :
    includeLoop d i false (line :: rest) =
      (d :: line :: (includeLoop d (i + 1) true rest).1,
        (includeLoop d (i + 1) true rest).2) := by
  unfold isIncludeLine at h
  unfold isBlankOrComment at hb
  simp only [Bool.or_eq_false_iff, beq_eq_false_iff_ne, ne_eq] at hb
  rw [includeLoop_cons]
  simp only [h, Bool.false_eq_true, if_false, Bool.not_false, Bool.true_and, hb.1, hi,
    decide_True, bne_iff_ne, ne_eq, hb.2, not_false_eq_true, if_true]

theorem includeLoop_pass (d : Str) (i : Nat) (a : Bool) (line : Str) (rest : List Str)
    (h : isIncludeLine line = false)
    (hc : a = true ∨ i = 0 ∨ isBlankOrComment line = true) :
    includeLoop d i a (line :: rest) =
      (line :: (includeLoop d (i + 1) a rest).1, (includeLoop d (i + 1) a rest).2) := by
  unfold isIncludeLine at h
  unfold isBlankOrComment at hc
  rw [includeLoop_cons]
  simp only [h, Bool.false_eq_true, if_false]
  have hcond : (!a && decide (i > 0) && !hasPrefix (trimSpace line) "#".toList
      && trimSpace line != []) = false := by
    rcases hc with hc | hc | hc
    · subst hc; simp
    · subst hc; simp
    · simp only [Bool.or_eq_true, beq_iff_eq] at hc
      rcases hc with hc | hc
      · rw [hc]; simp
      · rw [hc]; simp
  rw [hcond]
  simp only [Bool.false_eq_true, if_false]

theorem blankOrComment_not_include (line : Str) (h : isBlankOrComment line = true) :
    isIncludeLine line = false := by
  unfold isBlankOrComment at h
  unfold isIncludeLine
  simp only [Bool.or_eq_true, beq_iff_eq] at h
  rcases h with h | h
  · cases ht : trimSpace line with
    | nil => rfl
    | cons c cs =>
      rw [ht] at h
      have hc : c = '#' := by
        by_contra hne
        have hf : hasPrefix (c :: cs) ('#' :: []) = false := hasPrefix_cons_ne c '#' cs [] hne
        have e : ("#".toList : Str) = '#' :: [] := rfl
        rw [e, hf] at h
        exact absurd h (by simp)
      subst hc
      exact hasPrefix_cons_ne '#' 'I' cs _ (by decide)
  · rw [h]; rfl

theorem includeLoop_inserted (d : Str) (i : Nat) (a : Bool) (lines : List Str) :
    Inserted d lines (includeLoop d i a lines).1 := by
  induction lines generalizing i a with
  | nil => exact Inserted.nil
  | cons line rest ih =>
    rw [includeLoop_cons]
    split_ifs
    · exact Inserted.keep line (Inserted.ins (ih _ _))
    · exact Inserted.keep line (ih _ _)
    · exact Inserted.ins (Inserted.keep line (ih _ _))
    · exact Inserted.keep line (ih _ _)

theorem includeLoop_flag (d : Str) (i : Nat) (a : Bool) (lines : List Str)
    (h : (includeLoop d i a lines).2 = true) :
    a = true ∨ d ∈ (includeLoop d i a lines).1 := by
  induction lines generalizing i a with
  | nil => exact Or.inl h
  | cons line rest ih =>
    rw [includeLoop_cons] at h ⊢
    split_ifs at h ⊢
    · exact Or.inr (List.mem_cons_of_mem _ (List.mem_cons_self _ _))
    · rcases ih _ _ h with h1 | h1
      · exact Or.inl h1
      · exact Or.inr (List.mem_cons_of_mem _ h1)
    · exact Or.inr (List.mem_cons_self _ _)
    · rcases ih _ _ h with h1 | h1
      · exact Or.inl h1
      · exact Or.inr (List.mem_cons_of_mem _ h1)

theorem Inserted.same (d : Str) (lines : List Str) : Inserted d lines lines := by
  induction lines with
  | nil => exact Inserted.nil
  | cons x xs ih => exact Inserted.keep x ih

theorem Inserted.append {d : Str} {a a' b b' : List Str} (ha : Inserted d a a')
    (hb : Inserted d b b') : Inserted d (a ++ b) (a' ++ b') := by
  induction ha with
  | nil => exact hb
  | keep x _ ih => exact Inserted.keep x ih
  | ins _ ih => exact Inserted.ins ih

theorem Inserted.mem {d x : Str} {lines out : List Str} (h : Inserted d lines out)
    (hx : x ∈ out) : x = d ∨ x ∈ lines := by
  induction h with
  | nil => exact absurd hx (List.not_mem_nil x)
  | keep y _ ih =>
    rcases List.mem_cons.mp hx with hx | hx
    · exact Or.inr (hx ▸ List.mem_cons_self _ _)
    · rcases ih hx with h1 | h1
      · exact Or.inl h1
      · exact Or.inr (List.mem_cons_of_mem _ h1)
  | ins _ ih =>
    rcases List.mem_cons.mp hx with hx | hx
    · exact Or.inl hx
    · exact ih hx

theorem Inserted.filter_eq {d : Str} {lines out : List Str} (h : Inserted d lines out)
    (hd : d ∉ lines) : out.filter (fun l => l != d) = lines := by
  induction h with
  | nil => rfl
  | keep y _ ih =>
    simp only [List.mem_cons, not_or] at hd
    have hy : (y != d) = true := by simpa using fun e => hd.1 e.symm
    rw [List.filter_cons, hy, if_pos rfl, ih hd.2]
  | ins _ ih =>
    have hdd : (d != d) = false := by simp
    rw [List.filter_cons, hdd]
    simpa using ih hd

theorem mem_join_part (sep l : Str) (ls : List Str) (h : l ∈ ls) : l <:+: join sep ls := by
  induction ls with
  | nil => exact absurd h (List.not_mem_nil l)
  | cons a rest ih =>
    cases rest with
    | nil =>
      simp only [List.mem_singleton] at h
      subst h; exact List.infix_refl _
    | cons b rest2 =>
      have e : join sep (a :: b :: rest2) = a ++ sep ++ join sep (b :: rest2) := rfl
      rw [e]
      rcases List.mem_cons.mp h with h | h
      · subst h
        rw [List.append_assoc]
        exact (List.prefix_append _ _).isInfix
      · exact (ih h).trans (List.suffix_append _ _).isInfix

theorem join_split (sep : Char) (s : Str) : join [sep] (split sep s) = s := by
  induction s with
  | nil => rfl
  | cons c cs ih =>
    by_cases hc : c = sep
    · subst hc
      have e : split c (c :: cs) = [] :: split c cs := by simp [split]
      rw [e]
      cases hs : split c cs with
      | nil => exact absurd hs (split_ne_nil c cs)
      | cons l ls =>
        rw [hs] at ih
        have e2 : join [c] ([] :: l :: ls) = [] ++ [c] ++ join [c] (l :: ls) := rfl
        rw [e2, ih]; rfl
    · obtain ⟨l, ls, h1, h2⟩ := split_cons_ne sep c cs hc
      rw [h2]
      rw [h1] at ih
      cases ls with
      | nil =>
        simp only [join] at ih ⊢
        rw [ih]
      | cons l2 ls2 =>
        have e2 : join [sep] ((c :: l) :: l2 :: ls2) = c :: (l ++ [sep] ++ join [sep] (l2 :: ls2)) :=
          rfl
        have e3 : join [sep] (l :: l2 :: ls2) = l ++ [sep] ++ join [sep] (l2 :: ls2) := rfl
        rw [e2, ← e3, ih]

theorem includeLoop_added_plain (d : Str) (i : Nat) (lines : List Str)
    (h : ∀ l ∈ lines, isIncludeLine l = false) : includeLoop d i true lines = (lines, true) := by
  induction lines generalizing i with
  | nil => rfl
  | cons line rest ih =>
    rw [includeLoop_pass d i true line rest (h line (List.mem_cons_self _ _)) (Or.inl rfl),
      ih (i + 1) (fun l hl => h l (List.mem_cons_of_mem _ hl))]

theorem includeLoop_blank (d : Str) (i : Nat) (lines : List Str)
    (h : ∀ l ∈ lines, isBlankOrComment l = true) :
    includeLoop d i false lines = (lines, false) := by
  induction lines generalizing i with
  | nil => rfl
  | cons line rest ih =>
    have hb := h line (List.mem_cons_self _ _)
    rw [includeLoop_pass d i false line rest (blankOrComment_not_include line hb)
      (Or.inr (Or.inr hb)), ih (i + 1) (fun l hl => h l (List.mem_cons_of_mem _ hl))]

theorem includeLoop_append_plain (d : Str) (i : Nat) (a : Bool) (pre more : List Str)
    (h : ∀ l ∈ pre, isIncludeLine l = false) :
    includeLoop d i a (pre ++ more) =
      ((includeLoop d i a pre).1 ++
          (includeLoop d (i + pre.length) (includeLoop d i a pre).2 more).1,
        (includeLoop d (i + pre.length) (includeLoop d i a pre).2 more).2) := by
  induction pre generalizing i a with
  | nil => rfl
  | cons line rest ih =>
    have hl := h line (List.mem_cons_self _ _)
    have hr : ∀ l ∈ rest, isIncludeLine l = false := fun l hl => h l (List.mem_cons_of_mem _ hl)
    have hlen : i + (line :: rest).length = i + 1 + rest.length := by
      simp only [List.length_cons]; omega
    rw [hlen, List.cons_append]
    unfold isIncludeLine at hl
    rw [includeLoop_cons, includeLoop_cons]
    simp only [hl, Bool.false_eq_true, if_false]
    split_ifs
    · rw [ih (i + 1) true hr]; rfl
    · rw [ih (i + 1) a hr]; rfl

theorem includeLoop_run (d : Str) (i : Nat) (a : Bool) (run : List Str) (q : Str)
    (post : List Str) (hne : run ≠ []) (hrun : ∀ l ∈ run, isIncludeLine l = true)
    (hq : isIncludeLine q = false) :
    includeLoop d i a (run ++ q :: post) =
      (run ++ d :: (includeLoop d (i + run.length) true (q :: post)).1,
        (includeLoop d (i + run.length) true (q :: post)).2) := by
  induction run generalizing i a with
  | nil => exact absurd rfl hne
  | cons x rest ih =>
    have hx := hrun x (List.mem_cons_self _ _)
    have hlen : i + (x :: rest).length = i + 1 + rest.length := by
      simp only [List.length_cons]; omega
    cases rest with
    | nil =>
      rw [List.singleton_append, includeLoop_include_last d i a x q post hx hq]
      rfl
    | cons y rest2 =>
      have hy := hrun y (List.mem_cons_of_mem _ (List.mem_cons_self _ _))
      rw [hlen]
      have e : (x :: y :: rest2) ++ q :: post = x :: y :: (rest2 ++ q :: post) := rfl
      rw [e, includeLoop_include_more d i a x y _ hx hy]
      have ih2 := ih (i + 1) a (by simp) (fun l hl => hrun l (List.mem_cons_of_mem _ hl))
      have e2 : (y :: rest2) ++ q :: post = y :: (rest2 ++ q :: post) := rfl
      rw [e2] at ih2
      rw [ih2]
      rfl

theorem Inserted.ne_nil {d : Str} {lines out : List Str} (h : Inserted d lines out)
    (hne : lines ≠ []) : out ≠ [] := by
  cases h with
  | nil => exact absurd rfl hne
  | keep x _ => exact List.cons_ne_nil _ _
  | ins _ => exact List.cons_ne_nil _ _

theorem ensureIncludeDirective_new (t p : Str) (hnc : ¬ includeDirective p <:+: t) :
    ensureIncludeDirective (some t) p =
      join "\n".toList
        (if (includeLoop (includeDirective p) 0 false (split '\n' t)).2 = true
          then (includeLoop (includeDirective p) 0 false (split '\n' t)).1
          else includeDirective p :: (includeLoop (includeDirective p) 0 false (split '\n' t)).1) := by
  have hc : contains t (includeDirective p) = false := by
    rw [← Bool.not_eq_true, contains_iff]; exact hnc
  simp only [ensureIncludeDirective, hc, Bool.false_eq_true, if_false]
  cases (includeLoop (includeDirective p) 0 false (split '\n' t)).2 <;> rfl

theorem ensureIncludeDirective_same (t p : Str) (hc : includeDirective p <:+: t) :
    ensureIncludeDirective (some t) p = t := by
  have hc2 : contains t (includeDirective p) = true := (contains_iff _ _).mpr hc
  simp only [ensureIncludeDirective, hc2, if_true]

theorem directive_in_result (primary : Option Str) (p : Str) :
    includeDirective p <:+: ensureIncludeDirective primary p := by
  cases primary with
  | none => exact (List.prefix_append _ _).isInfix
  | some t =>
    by_cases hc : includeDirective p <:+: t
    · rw [ensureIncludeDirective_same t p hc]; exact hc
    · rw [ensureIncludeDirective_new t p hc]
      apply mem_join_part
      by_cases hf : (includeLoop (includeDirective p) 0 false (split '\n' t)).2 = true
      · rw [if_pos hf]
        rcases includeLoop_flag _ _ _ _ hf with h1 | h1
        · exact absurd h1 (by simp)
        · exact h1
      · rw [if_neg hf]; exact List.mem_cons_self _ _

/-! ## `TransformGitURL` -/

/-- C1: for a non-empty host `h` without `:`, a non-empty path `p` without a
line feed and a profile with a non-empty `sshHost`, `TransformGitURL` maps
`git@h:p` to `git@<sshHost>:p` with no error: the user and the path are kept,
only the host changes.  In particular `git@github.com:acme/widgets.git` with
`sshHost` `github.com-work` gives `git@github.com-work:acme/widgets.git`. -/
theorem TransformGitURL_changes_host_only (h p : Str) (pr : Profile)
    (hh : h ≠ []) (hc : ':' ∉ h) (hp : p ≠ []) (hn : '\n' ∉ p) (hs : pr.SSHHost ≠ []) :
    TransformGitURL ("git@".toList ++ h ++ ":".toList ++ p) (some pr)
        = ("git@".toList ++ pr.SSHHost ++ ":".toList ++ p, none) ∧
    TransformGitURL "git@github.com:acme/widgets.git".toList
        (some ⟨[], "github.com-work".toList, [], []⟩)
        = ("git@github.com-work:acme/widgets.git".toList, none) := by
  refine ⟨?_, by decide⟩
  simp only [TransformGitURL, hs, if_false, sshRegexMatch_git h p hh hc hp hn]

/-- Witness of C1 at `git@gitlab.com:team/app.git` and `sshHost` `gitlab-me`. -/
theorem TransformGitURL_changes_host_only_witness :
    TransformGitURL ("git@".toList ++ "gitlab.com".toList ++ ":".toList ++ "team/app.git".toList)
        (some ⟨"me".toList, "gitlab-me".toList, [], []⟩)
        = ("git@".toList ++ "gitlab-me".toList ++ ":".toList ++ "team/app.git".toList, none) :=
  (TransformGitURL_changes_host_only "gitlab.com".toList "team/app.git".toList
    ⟨"me".toList, "gitlab-me".toList, [], []⟩
    (by decide) (by decide) (by decide) (by decide) (by decide)).1

/-- C2, as stated, fails: `alice@github.com:acme/widgets.git` is of the SSH
shorthand form `user@host:path`, the profile has a non-empty `sshHost`, and
`TransformGitURL` still returns an error. -/
theorem TransformGitURL_error_on_shorthand :
    IsSSHShorthand "alice@github.com:acme/widgets.git".toList ∧
    ¬ ((TransformGitURL "alice@github.com:acme/widgets.git".toList
          (some ⟨[], "github.com-work".toList, [], []⟩)).2.isSome = true ↔
        (("github.com-work".toList : Str) ≠ [] ∧
          ¬ IsSSHShorthand "alice@github.com:acme/widgets.git".toList)) := by
  have hform : IsSSHShorthand "alice@github.com:acme/widgets.git".toList :=
    ⟨"alice".toList, "github.com".toList, "acme/widgets.git".toList,
      by decide, by decide, by decide, by decide, by decide, by decide⟩
  refine ⟨hform, ?_⟩
  intro hiff
  have herr : (TransformGitURL "alice@github.com:acme/widgets.git".toList
      (some ⟨[], "github.com-work".toList, [], []⟩)).2.isSome = true := by decide
  exact (hiff.mp herr).2 hform

/-- C2, amended: `TransformGitURL` returns an error exactly when the profile
is present with a non-empty `sshHost` and the URL is not of the form
`git@<host>:<path>` (host non-empty without `:`, path non-empty without a line
feed); with an absent profile or an empty `sshHost` it returns the URL
unchanged with no error, for every URL; and whenever it returns an error the
returned URL is the input URL. -/
theorem TransformGitURL_error_iff (url : Str) (profile : Option Profile) :
    ((TransformGitURL url profile).2.isSome = true ↔
      ∃ p, profile = some p ∧ p.SSHHost ≠ [] ∧ ¬ IsGitSSHURL url) ∧
    ((profile = none ∨ ∃ p, profile = some p ∧ p.SSHHost = []) →
      TransformGitURL url profile = (url, none)) ∧
    ((TransformGitURL url profile).2.isSome = true → (TransformGitURL url profile).1 = url) := by
  cases profile with
  | none => simp [TransformGitURL]
  | some p =>
    by_cases hs : p.SSHHost = []
    · simp [TransformGitURL, hs]
    · cases hm : sshRegexMatch url with
      | none =>
        have hnot : ¬ IsGitSSHURL url := by
          rw [← sshRegexMatch_isSome_iff, hm]; simp
        simp [TransformGitURL, hs, hm, hnot]
      | some hp =>
        have hyes : IsGitSSHURL url := by
          rw [← sshRegexMatch_isSome_iff, hm]; rfl
        simp [TransformGitURL, hs, hm, hyes]

/-- Witness of C2 (amended): with an absent profile a URL that is no SSH URL
passes through unchanged with no error. -/
theorem TransformGitURL_error_iff_witness :
    TransformGitURL "https://github.com/acme/widgets".toList none
      = ("https://github.com/acme/widgets".toList, none) :=
  (TransformGitURL_error_iff "https://github.com/acme/widgets".toList none).2.1 (Or.inl rfl)

/-- C3, as stated, fails: for the user `alice` (non-empty, without `:`) the
URL `alice@github.com:acme/widgets.git` is not rewritten to
`alice@github.com-work:acme/widgets.git`; it comes back unchanged with an
error. -/
theorem TransformGitURL_other_user_rejected :
    (("alice".toList : Str) ≠ [] ∧ ':' ∉ ("alice".toList : Str)) ∧
    (("github.com".toList : Str) ≠ [] ∧ ':' ∉ ("github.com".toList : Str)) ∧
    ("acme/widgets.git".toList : Str) ≠ [] ∧
    TransformGitURL
        ("alice".toList ++ "@".toList ++ "github.com".toList ++ ":".toList ++ "acme/widgets.git".toList)
        (some ⟨[], "github.com-work".toList, [], []⟩)
      ≠ ("alice".toList ++ "@".toList ++ "github.com-work".toList ++ ":".toList ++
          "acme/widgets.git".toList, none) ∧
    TransformGitURL
        ("alice".toList ++ "@".toList ++ "github.com".toList ++ ":".toList ++ "acme/widgets.git".toList)
        (some ⟨[], "github.com-work".toList, [], []⟩)
      = ("alice@github.com:acme/widgets.git".toList,
          some (unsupportedURLError "alice@github.com:acme/widgets.git".toList)) := by
  decide

/-- C3, amended: for a URL `user@host:path` (host non-empty without `:`, path
non-empty) and a profile with a non-empty `sshHost`, when the user is `git`
and the path has no line feed `TransformGitURL` returns
`git@<sshHost>:path` with no error, the user kept literally and only the host
replaced; when the user is any other string without `@` it returns the input
URL unchanged together with the unsupported-format error. -/
theorem TransformGitURL_user_git_only (user h p : Str) (pr : Profile)
    (hh : h ≠ []) (hc : ':' ∉ h) (hp : p ≠ []) (hs : pr.SSHHost ≠ []) :
    (user = "git".toList → '\n' ∉ p →
      TransformGitURL (user ++ "@".toList ++ h ++ ":".toList ++ p) (some pr)
        = (user ++ "@".toList ++ pr.SSHHost ++ ":".toList ++ p, none)) ∧
    (user ≠ "git".toList → '@' ∉ user →
      TransformGitURL (user ++ "@".toList ++ h ++ ":".toList ++ p) (some pr)
        = (user ++ "@".toList ++ h ++ ":".toList ++ p,
            some (unsupportedURLError (user ++ "@".toList ++ h ++ ":".toList ++ p)))) := by
  constructor
  · intro hu hn
    subst hu
    have e : ∀ x : Str, ("git".toList ++ "@".toList ++ x : Str) = "git@".toList ++ x := by
      intro x; simp
    rw [e, e]
    simp only [TransformGitURL, hs, if_false, sshRegexMatch_git h p hh hc hp hn]
  · intro hu ha
    have hm := sshRegexMatch_no_git user (h ++ ":".toList ++ p) hu ha
    simp only [← List.append_assoc] at hm
    simp only [TransformGitURL, hs, if_false, hm]

/-- Witness of C3 (amended) at user `git`, `github.com`, `acme/widgets.git`. -/
theorem TransformGitURL_user_git_only_witness :
    TransformGitURL ("git".toList ++ "@".toList ++ "github.com".toList ++ ":".toList ++
        "acme/widgets.git".toList) (some ⟨[], "github.com-work".toList, [], []⟩)
      = ("git".toList ++ "@".toList ++ "github.com-work".toList ++ ":".toList ++
          "acme/widgets.git".toList, none) :=
  (TransformGitURL_user_git_only "git".toList "github.com".toList "acme/widgets.git".toList
    ⟨[], "github.com-work".toList, [], []⟩ (by decide) (by decide) (by decide) (by decide)).1
    rfl (by decide)

/-- C4, as stated, fails: with `sshHost` `a:b` the URL `git@h:p` becomes
`git@a:b:p`, and transforming that again gives `git@a:b:b:p`. -/
theorem TransformGitURL_not_idempotent_colon_host :
    (TransformGitURL (TransformGitURL "git@h:p".toList (some ⟨[], "a:b".toList, [], []⟩)).1
        (some ⟨[], "a:b".toList, [], []⟩)).1
      ≠ (TransformGitURL "git@h:p".toList (some ⟨[], "a:b".toList, [], []⟩)).1 ∧
    (TransformGitURL "git@h:p".toList (some ⟨[], "a:b".toList, [], []⟩)).1
      = "git@a:b:p".toList ∧
    (TransformGitURL "git@a:b:p".toList (some ⟨[], "a:b".toList, [], []⟩)).1
      = "git@a:b:b:p".toList := by
  decide

/-- C4, amended: for every URL and every profile (absent, or present with an
`sshHost` that contains no `:`), transforming the URL returned by
`TransformGitURL` again with the same profile returns the same URL. -/
theorem TransformGitURL_idempotent (u : Str) (profile : Option Profile)
    (hcolon : ∀ p, profile = some p → ':' ∉ p.SSHHost) :
    (TransformGitURL (TransformGitURL u profile).1 profile).1
      = (TransformGitURL u profile).1 := by
  cases profile with
  | none => simp [TransformGitURL]
  | some p =>
    by_cases hs : p.SSHHost = []
    · simp [TransformGitURL, hs]
    · cases hm : sshRegexMatch u with
      | none => simp [TransformGitURL, hs, hm]
      | some hp =>
        obtain ⟨h0, path⟩ := hp
        obtain ⟨_, _, _, h3, h4⟩ := sshRegexMatch_eq_some u h0 path hm
        have h2 := sshRegexMatch_git p.SSHHost path hs (hcolon p rfl) h3 h4
        simp only [TransformGitURL, hs, if_false, hm, h2]

/-- Witness of C4 (amended) at `git@github.com:acme/widgets.git` and `sshHost`
`github.com-work`. -/
theorem TransformGitURL_idempotent_witness :
    (TransformGitURL (TransformGitURL "git@github.com:acme/widgets.git".toList
        (some ⟨[], "github.com-work".toList, [], []⟩)).1
        (some ⟨[], "github.com-work".toList, [], []⟩)).1
      = (TransformGitURL "git@github.com:acme/widgets.git".toList
        (some ⟨[], "github.com-work".toList, [], []⟩)).1 :=
  TransformGitURL_idempotent "git@github.com:acme/widgets.git".toList
    (some ⟨[], "github.com-work".toList, [], []⟩)
    (by intro p hp; cases hp; decide)

/-! ## `DetectProfileForURL` -/

/-- C5: `DetectProfileForURL` returns `found = true` exactly when some profile
has a pattern that is a substring of `NormalizeURL(url)`; when found, the
returned key is the key of a profile with such a pattern, hence the key of
the matching profile when only one key matches, in whatever order the
profiles are enumerated; when not found the key is the empty string.  With
`personal` (pattern `alice`) and `work` (pattern `acme`) the URL
`git@github.com:acme/widgets.git` gives (`work`, true) in both orders. -/
theorem DetectProfileForURL_found_iff (url : Str) (profiles : List (Str × Profile)) :
    ((DetectProfileForURL url profiles).2 = true ↔
      ∃ e ∈ profiles, ∃ pat ∈ e.2.URLPatterns, pat <:+: NormalizeURL url) ∧
    ((DetectProfileForURL url profiles).2 = true →
      ∃ e ∈ profiles, e.1 = (DetectProfileForURL url profiles).1 ∧
        ∃ pat ∈ e.2.URLPatterns, pat <:+: NormalizeURL url) ∧
    (∀ e ∈ profiles, (∃ pat ∈ e.2.URLPatterns, pat <:+: NormalizeURL url) →
      (∀ e' ∈ profiles, (∃ pat ∈ e'.2.URLPatterns, pat <:+: NormalizeURL url) → e'.1 = e.1) →
      DetectProfileForURL url profiles = (e.1, true)) ∧
    ((DetectProfileForURL url profiles).2 = false →
      (DetectProfileForURL url profiles).1 = []) ∧
    DetectProfileForURL "git@github.com:acme/widgets.git".toList
      [("personal".toList, ⟨[], [], ["alice".toList], []⟩),
       ("work".toList, ⟨[], [], ["acme".toList], []⟩)] = ("work".toList, true) ∧
    DetectProfileForURL "git@github.com:acme/widgets.git".toList
      [("work".toList, ⟨[], [], ["acme".toList], []⟩),
       ("personal".toList, ⟨[], [], ["alice".toList], []⟩)] = ("work".toList, true) := by
  have hfound : (DetectProfileForURL url profiles).2 = true ↔
      ∃ e ∈ profiles, ∃ pat ∈ e.2.URLPatterns, pat <:+: NormalizeURL url := by
    unfold DetectProfileForURL
    rw [detectLoop_found_iff]
    simp only [anyPatternMatches_iff]
  have hkey : (DetectProfileForURL url profiles).2 = true →
      ∃ e ∈ profiles, e.1 = (DetectProfileForURL url profiles).1 ∧
        ∃ pat ∈ e.2.URLPatterns, pat <:+: NormalizeURL url := by
    intro h
    obtain ⟨e, he, h1, h2⟩ := detectLoop_key (NormalizeURL url) profiles h
    exact ⟨e, he, h1, (anyPatternMatches_iff _ _).mp h2⟩
  refine ⟨hfound, hkey, ?_, ?_, by decide, by decide⟩
  · intro e he hm huniq
    have hf := hfound.mpr ⟨e, he, hm⟩
    obtain ⟨e', he', h1, h2⟩ := hkey hf
    have hk := huniq e' he' h2
    rw [h1] at hk
    exact Prod.ext hk hf
  · intro h
    have := detectLoop_not_found (NormalizeURL url) profiles h
    unfold DetectProfileForURL
    rw [this]

/-- Witness of C5: among `personal` and `work`, only `work` has a pattern
occurring in `github.com:acme/widgets.git`, and it is the key returned. -/
theorem DetectProfileForURL_found_iff_witness :
    DetectProfileForURL "git@github.com:acme/widgets.git".toList
      [("personal".toList, ⟨[], [], ["alice".toList], []⟩),
       ("work".toList, ⟨[], [], ["acme".toList, "widgets".toList], []⟩)]
      = ("work".toList, true) :=
  (DetectProfileForURL_found_iff "git@github.com:acme/widgets.git".toList
      [("personal".toList, ⟨[], [], ["alice".toList], []⟩),
       ("work".toList, ⟨[], [], ["acme".toList, "widgets".toList], []⟩)]).2.2.1
    ("work".toList, ⟨[], [], ["acme".toList, "widgets".toList], []⟩)
    (by simp)
    ⟨"acme".toList, by simp, (contains_iff _ _).mp (by decide)⟩
    (by
      intro e' he' hm
      simp only [List.mem_cons, List.mem_singleton, List.not_mem_nil, or_false] at he'
      rcases he' with rfl | rfl
      · obtain ⟨pat, hp, hi⟩ := hm
        simp only [List.mem_singleton] at hp
        subst hp
        exact absurd ((contains_iff _ _).mpr hi) (by decide)
      · rfl)

/-- C6, as stated, fails: two profiles `personal` and `work` both have the
pattern `github.com`; enumerated in one order the result is (`personal`,
true), in the other order (`work`, true). -/
theorem DetectProfileForURL_order_dependent :
    List.Perm
      [("personal".toList, (⟨[], [], ["github.com".toList], []⟩ : Profile)),
       ("work".toList, ⟨[], [], ["github.com".toList], []⟩)]
      [("work".toList, ⟨[], [], ["github.com".toList], []⟩),
       ("personal".toList, ⟨[], [], ["github.com".toList], []⟩)] ∧
    DetectProfileForURL "git@github.com:acme/widgets.git".toList
      [("personal".toList, ⟨[], [], ["github.com".toList], []⟩),
       ("work".toList, ⟨[], [], ["github.com".toList], []⟩)] = ("personal".toList, true) ∧
    DetectProfileForURL "git@github.com:acme/widgets.git".toList
      [("work".toList, ⟨[], [], ["github.com".toList], []⟩),
       ("personal".toList, ⟨[], [], ["github.com".toList], []⟩)] = ("work".toList, true) ∧
    DetectProfileForURL "git@github.com:acme/widgets.git".toList
      [("personal".toList, ⟨[], [], ["github.com".toList], []⟩),
       ("work".toList, ⟨[], [], ["github.com".toList], []⟩)]
      ≠ DetectProfileForURL "git@github.com:acme/widgets.git".toList
      [("work".toList, ⟨[], [], ["github.com".toList], []⟩),
       ("personal".toList, ⟨[], [], ["github.com".toList], []⟩)] := by
  refine ⟨List.Perm.swap _ _ _, by decide, by decide, by decide⟩

/-- C6, amended: for every URL and every two enumeration orders of the same
profiles, `found` is the same; and when all profiles with a pattern matching
the URL carry one key (in particular when at most one profile matches), the
returned (key, found) pair is the same in both orders. -/
theorem DetectProfileForURL_order_independent (url : Str) (ps ps' : List (Str × Profile))
    (hperm : ps.Perm ps') :
    (DetectProfileForURL url ps).2 = (DetectProfileForURL url ps').2 ∧
    ((∀ e ∈ ps, ∀ e' ∈ ps, anyPatternMatches (NormalizeURL url) e.2.URLPatterns = true →
        anyPatternMatches (NormalizeURL url) e'.2.URLPatterns = true → e.1 = e'.1) →
      DetectProfileForURL url ps = DetectProfileForURL url ps') := by
  unfold DetectProfileForURL
  have hfound : (detectLoop (NormalizeURL url) ps).2 = (detectLoop (NormalizeURL url) ps').2 := by
    rw [Bool.eq_iff_iff, detectLoop_found_iff, detectLoop_found_iff]
    constructor
    · rintro ⟨e, he, hm⟩; exact ⟨e, hperm.mem_iff.mp he, hm⟩
    · rintro ⟨e, he, hm⟩; exact ⟨e, hperm.mem_iff.mpr he, hm⟩
  refine ⟨hfound, ?_⟩
  intro huniq
  cases hf : (detectLoop (NormalizeURL url) ps).2 with
  | false =>
    rw [detectLoop_not_found _ _ hf, detectLoop_not_found _ _ (hfound ▸ hf)]
  | true =>
    obtain ⟨e, he, h1, h2⟩ := detectLoop_key _ _ hf
    obtain ⟨e', he', h1', h2'⟩ := detectLoop_key _ _ (hfound ▸ hf)
    have hk := huniq e he e' (hperm.mem_iff.mpr he') h2 h2'
    rw [h1, h1'] at hk
    exact Prod.ext hk hfound

/-- Witness of C6 (amended): `personal` and `work` enumerated in the two
orders, only `work` matching. -/
theorem DetectProfileForURL_order_independent_witness :
    DetectProfileForURL "git@github.com:acme/widgets.git".toList
      [("personal".toList, ⟨[], [], ["alice".toList], []⟩),
       ("work".toList, ⟨[], [], ["acme".toList], []⟩)]
    = DetectProfileForURL "git@github.com:acme/widgets.git".toList
      [("work".toList, ⟨[], [], ["acme".toList], []⟩),
       ("personal".toList, ⟨[], [], ["alice".toList], []⟩)] :=
  (DetectProfileForURL_order_independent "git@github.com:acme/widgets.git".toList
      [("personal".toList, ⟨[], [], ["alice".toList], []⟩),
       ("work".toList, ⟨[], [], ["acme".toList], []⟩)]
      [("work".toList, ⟨[], [], ["acme".toList], []⟩),
       ("personal".toList, ⟨[], [], ["alice".toList], []⟩)]
      (List.Perm.swap _ _ _)).2
    (by
      intro e he e' he' hm hm'
      simp only [List.mem_cons, List.mem_singleton, List.not_mem_nil, or_false] at he he'
      rcases he with rfl | rfl
      · exact absurd hm (by decide)
      · rcases he' with rfl | rfl
        · exact absurd hm' (by decide)
        · rfl)

/-! ## The secondary-file merge -/

set_option maxRecDepth 100000

/-- C7: when the secondary file does not exist or is empty the merge result
is exactly the new block; and for an existing text in which `Host <sshHost>`
does not occur the result is the existing text, then one line feed only if
the text is non-empty and does not end with a line feed, then the new block
unchanged. -/
theorem mergeFragment_appends (existing sshHost sshConfig : Str) (confirmed : Bool) :
    mergeFragment none sshHost sshConfig confirmed = some sshConfig ∧
    mergeFragment (some []) sshHost sshConfig confirmed = some sshConfig ∧
    (¬ hostPattern sshHost <:+: existing →
      mergeFragment (some existing) sshHost sshConfig confirmed =
        some (existing ++ (if existing ≠ [] ∧ ¬ ['\n'] <:+ existing then ['\n'] else []) ++
          sshConfig)) := by
  refine ⟨rfl, ?_, ?_⟩
  · have hc : contains [] (hostPattern sshHost) = false := by
      simp [contains, hostPattern, hasPrefix]
    simp [mergeFragment, removeExistingHost, hc]
  · intro hno
    have hc : contains existing (hostPattern sshHost) = false := by
      rw [← Bool.not_eq_true, contains_iff]; exact hno
    have hsuf : hasSuffix existing "\n".toList = true ↔ ['\n'] <:+ existing :=
      hasSuffix_iff existing _
    by_cases h1 : existing = []
    · subst h1
      simp [mergeFragment, removeExistingHost, hc]
    · by_cases h2 : ['\n'] <:+ existing
      · have h3 : hasSuffix existing ['\n'] = true := hsuf.mpr h2
        simp [mergeFragment, removeExistingHost, hc, h1, h2, h3]
      · have h3 : hasSuffix existing ['\n'] = false := by
          rw [← Bool.not_eq_true]; exact fun h => h2 (hsuf.mp h)
        simp [mergeFragment, removeExistingHost, hc, h1, h2, h3]

/-- Witness of C7: appending the block for `github.com-work` to a file that
holds another host and does not end with a line feed. -/
theorem mergeFragment_appends_witness :
    mergeFragment (some "Host other\n  Hostname example.com".toList) "github.com-work".toList
        "Host github.com-work\n".toList true =
      some ("Host other\n  Hostname example.com".toList ++
        (if ("Host other\n  Hostname example.com".toList : Str) ≠ [] ∧
            ¬ ['\n'] <:+ ("Host other\n  Hostname example.com".toList : Str)
          then ['\n'] else []) ++ "Host github.com-work\n".toList) :=
  (mergeFragment_appends "Host other\n  Hostname example.com".toList "github.com-work".toList
    "Host github.com-work\n".toList true).2.2
    (by rw [← contains_iff]; decide)

/-- C8, evaluated on the code: merging the block for `github.com-work` into a
file that holds the generated block of `github.com-work2` removes the
`Host github.com-work2` line and its four option lines; only the comment line
of that block is left before the new block. -/
theorem mergeFragment_drops_longer_host :
    mergeFragment
        (some (sshConfigFragment "Work2".toList "github.com-work2".toList
          "~/.ssh/github_work2".toList))
        "github.com-work".toList
        (sshConfigFragment "Work".toList "github.com-work".toList "~/.ssh/github_work".toList)
        true
      = some ("# Work2 profile (added by gclone)\n".toList ++
          sshConfigFragment "Work".toList "github.com-work".toList "~/.ssh/github_work".toList) ∧
    ¬ "Host github.com-work2".toList ∈ split '\n' (removeExistingHost
        (sshConfigFragment "Work2".toList "github.com-work2".toList "~/.ssh/github_work2".toList)
        "github.com-work".toList) := by
  decide

/-- C9: for every content of the secondary file (absent, or any text with
any number of `Host h` blocks) and every generated fragment for a non-empty
host `h` without white space (display name and identity file without line
feeds), the merge confirmed by the user returns `kept ++ fragment`, where
`kept` is empty or ends with a line feed and none of its lines has trimmed
content beginning with `Host h`; the lines of the result are those of `kept`
followed by those of the fragment, and exactly one line of the result has
trimmed content beginning with `Host h`: the `Host h` line of the fragment. -/
theorem mergeFragment_single_host_line (existing : Option Str) (name h idf : Str)
    (hh : h ≠ []) (hws : ∀ c ∈ h, isSpace c = false)
    (hn : '\n' ∉ name) (hi : '\n' ∉ idf) :
    ∃ kept, mergeFragment existing h (sshConfigFragment name h idf) true
        = some (kept ++ sshConfigFragment name h idf) ∧
      (kept = [] ∨ ['\n'] <:+ kept) ∧
      (∀ l ∈ split '\n' kept, hasPrefix (trimSpace l) (hostPattern h) = false) ∧
      split '\n' (kept ++ sshConfigFragment name h idf)
        = (split '\n' kept).dropLast ++ split '\n' (sshConfigFragment name h idf) ∧
      ((split '\n' (kept ++ sshConfigFragment name h idf)).filter
        (fun l => hasPrefix (trimSpace l) (hostPattern h))).length = 1 := by
  have hempty : hasPrefix (trimSpace []) (hostPattern h) = false := by
    simp [hostPattern, hasPrefix, trimSpace]
  have hfin : ∀ kept : Str, (kept = [] ∨ ['\n'] <:+ kept) →
      (∀ l ∈ split '\n' kept, hasPrefix (trimSpace l) (hostPattern h) = false) →
      split '\n' (kept ++ sshConfigFragment name h idf)
        = (split '\n' kept).dropLast ++ split '\n' (sshConfigFragment name h idf) ∧
      ((split '\n' (kept ++ sshConfigFragment name h idf)).filter
        (fun l => hasPrefix (trimSpace l) (hostPattern h))).length = 1 := by
    intro kept hk hclean
    refine ⟨split_append_block kept _ hk, ?_⟩
    rw [filter_split_append_block kept _ _ hk hclean]
    exact fragment_host_count name h idf hh hws hn hi
  cases existing with
  | none =>
    have hc : ∀ l ∈ split '\n' ([] : Str), hasPrefix (trimSpace l) (hostPattern h) = false := by
      intro l hl
      simp only [split, List.mem_singleton] at hl
      subst hl; exact hempty
    exact ⟨[], rfl, Or.inl rfl, hc, hfin [] (Or.inl rfl) hc⟩
  | some e =>
    have hclean0 := removeExistingHost_lines_clean e h
    by_cases hcond : (removeExistingHost e h != [] &&
        !hasSuffix (removeExistingHost e h) "\n".toList) = true
    · have hk : (removeExistingHost e h ++ "\n".toList = [] ∨
          ['\n'] <:+ removeExistingHost e h ++ "\n".toList) :=
        Or.inr (List.suffix_append _ _)
      have hc : ∀ l ∈ split '\n' (removeExistingHost e h ++ "\n".toList),
          hasPrefix (trimSpace l) (hostPattern h) = false := by
        intro l hl
        have e2 : removeExistingHost e h ++ "\n".toList
            = removeExistingHost e h ++ '\n' :: [] := rfl
        rw [e2, split_append_sep] at hl
        rcases List.mem_append.mp hl with hl | hl
        · exact hclean0 l hl
        · simp only [split, List.mem_singleton] at hl
          subst hl; exact hempty
      refine ⟨removeExistingHost e h ++ "\n".toList, ?_, hk, hc, hfin _ hk hc⟩
      simp only [mergeFragment, Bool.not_true, Bool.and_false, Bool.false_eq_true, if_false,
        hcond, if_true]
    · have hk : (removeExistingHost e h = [] ∨ ['\n'] <:+ removeExistingHost e h) := by
        by_cases hnil : removeExistingHost e h = []
        · exact Or.inl hnil
        · right
          rw [← hasSuffix_iff]
          have e3 : (['\n'] : Str) = "\n".toList := rfl
          rw [e3]
          simp only [Bool.and_eq_true, bne_iff_ne, ne_eq, Bool.not_eq_true', not_and,
            Bool.not_eq_false] at hcond
          exact hcond hnil
      refine ⟨removeExistingHost e h, ?_, hk, hclean0, hfin _ hk hclean0⟩
      simp only [mergeFragment, Bool.not_true, Bool.and_false, Bool.false_eq_true, if_false,
        hcond]

/-- Witness of C9: a secondary file that already holds two blocks of
`github.com-work`. -/
theorem mergeFragment_single_host_line_witness :
    ∃ kept, mergeFragment
        (some "Host github.com-work\n  Hostname a\nHost github.com-work\n  Hostname b\n".toList)
        "github.com-work".toList
        (sshConfigFragment "Work".toList "github.com-work".toList "~/.ssh/github_work".toList)
        true
        = some (kept ++
          sshConfigFragment "Work".toList "github.com-work".toList "~/.ssh/github_work".toList) ∧
      (kept = [] ∨ ['\n'] <:+ kept) ∧
      (∀ l ∈ split '\n' kept,
        hasPrefix (trimSpace l) (hostPattern "github.com-work".toList) = false) ∧
      split '\n' (kept ++
          sshConfigFragment "Work".toList "github.com-work".toList "~/.ssh/github_work".toList)
        = (split '\n' kept).dropLast ++ split '\n'
          (sshConfigFragment "Work".toList "github.com-work".toList "~/.ssh/github_work".toList) ∧
      ((split '\n' (kept ++
          sshConfigFragment "Work".toList "github.com-work".toList
            "~/.ssh/github_work".toList)).filter
        (fun l => hasPrefix (trimSpace l) (hostPattern "github.com-work".toList))).length = 1 :=
  mergeFragment_single_host_line
    (some "Host github.com-work\n  Hostname a\nHost github.com-work\n  Hostname b\n".toList)
    "Work".toList "github.com-work".toList "~/.ssh/github_work".toList
    (by decide) (by decide) (by decide) (by decide)

/-- C10, evaluated on the code: starting from an absent file, the first merge
writes the block `B`; the second merge of the same block keeps the comment
line of the old block and writes that comment line followed by `B`, which is
not `B`. -/
theorem mergeFragment_twice_not_idempotent :
    mergeFragment none "github.com-work".toList
        (sshConfigFragment "Work".toList "github.com-work".toList "~/.ssh/github_work".toList)
        true
      = some (sshConfigFragment "Work".toList "github.com-work".toList
          "~/.ssh/github_work".toList) ∧
    mergeFragment
        (mergeFragment none "github.com-work".toList
          (sshConfigFragment "Work".toList "github.com-work".toList "~/.ssh/github_work".toList)
          true)
        "github.com-work".toList
        (sshConfigFragment "Work".toList "github.com-work".toList "~/.ssh/github_work".toList)
        true
      = some ("# Work profile (added by gclone)\n".toList ++
          sshConfigFragment "Work".toList "github.com-work".toList "~/.ssh/github_work".toList) ∧
    mergeFragment
        (mergeFragment none "github.com-work".toList
          (sshConfigFragment "Work".toList "github.com-work".toList "~/.ssh/github_work".toList)
          true)
        "github.com-work".toList
        (sshConfigFragment "Work".toList "github.com-work".toList "~/.ssh/github_work".toList)
        true
      ≠ mergeFragment none "github.com-work".toList
        (sshConfigFragment "Work".toList "github.com-work".toList "~/.ssh/github_work".toList)
        true := by
  decide

/-- C11, evaluated on the code: for the distinct hosts `github.com-work2` and
`github.com-work`, the fragment of the first is merged into an absent file
and then the fragment of the second: `Host github.com-work` occurs in the
file, so the user is asked; on confirmation the `Host github.com-work2` line
and its option lines are removed and the result no longer contains the first
fragment; on refusal nothing is written and the second fragment is not
added. -/
theorem mergeFragment_two_hosts_one_lost :
    ("github.com-work2".toList : Str) ≠ "github.com-work".toList ∧
    mergeFragment none "github.com-work2".toList
        (sshConfigFragment "Work2".toList "github.com-work2".toList
          "~/.ssh/github_work2".toList) true
      = some (sshConfigFragment "Work2".toList "github.com-work2".toList
          "~/.ssh/github_work2".toList) ∧
    mergeFragment
        (mergeFragment none "github.com-work2".toList
          (sshConfigFragment "Work2".toList "github.com-work2".toList
            "~/.ssh/github_work2".toList) true)
        "github.com-work".toList
        (sshConfigFragment "Work".toList "github.com-work".toList "~/.ssh/github_work".toList)
        true
      = some ("# Work2 profile (added by gclone)\n".toList ++
          sshConfigFragment "Work".toList "github.com-work".toList "~/.ssh/github_work".toList) ∧
    contains ("# Work2 profile (added by gclone)\n".toList ++
        sshConfigFragment "Work".toList "github.com-work".toList "~/.ssh/github_work".toList)
      (sshConfigFragment "Work2".toList "github.com-work2".toList "~/.ssh/github_work2".toList)
      = false ∧
    mergeFragment
        (mergeFragment none "github.com-work2".toList
          (sshConfigFragment "Work2".toList "github.com-work2".toList
            "~/.ssh/github_work2".toList) true)
        "github.com-work".toList
        (sshConfigFragment "Work".toList "github.com-work".toList "~/.ssh/github_work".toList)
        false
      = none := by
  decide

/-- C19, evaluated on the code: the fragments of `github.com-personal` and
`github.com-work` (neither host a prefix of the other) are merged in that
order into an absent file, giving both fragments one after the other; merging
the fragment of `github.com-personal` again, confirmed, removes the comment
line `# Work profile (added by gclone)` of the other fragment together with
the old block, so the result does not contain the complete fragment of
`github.com-work`. -/
theorem mergeFragment_remerge_drops_comment :
    hasPrefix "github.com-personal".toList "github.com-work".toList = false ∧
    hasPrefix "github.com-work".toList "github.com-personal".toList = false ∧
    mergeFragment
        (mergeFragment none "github.com-personal".toList
          (sshConfigFragment "Personal".toList "github.com-personal".toList
            "~/.ssh/github_personal".toList) true)
        "github.com-work".toList
        (sshConfigFragment "Work".toList "github.com-work".toList "~/.ssh/github_work".toList)
        true
      = some (sshConfigFragment "Personal".toList "github.com-personal".toList
            "~/.ssh/github_personal".toList ++
          sshConfigFragment "Work".toList "github.com-work".toList
            "~/.ssh/github_work".toList) ∧
    mergeFragment
        (some (sshConfigFragment "Personal".toList "github.com-personal".toList
            "~/.ssh/github_personal".toList ++
          sshConfigFragment "Work".toList "github.com-work".toList
            "~/.ssh/github_work".toList))
        "github.com-personal".toList
        (sshConfigFragment "Personal".toList "github.com-personal".toList
          "~/.ssh/github_personal".toList)
        true
      = some (("# Personal profile (added by gclone)\nHost github.com-work\n" ++
            "  Hostname github.com\n  AddKeysToAgent yes\n  UseKeychain yes\n" ++
            "  IdentityFile ~/.ssh/github_work\n").toList ++
          sshConfigFragment "Personal".toList "github.com-personal".toList
            "~/.ssh/github_personal".toList) ∧
    contains
        (("# Personal profile (added by gclone)\nHost github.com-work\n" ++
            "  Hostname github.com\n  AddKeysToAgent yes\n  UseKeychain yes\n" ++
            "  IdentityFile ~/.ssh/github_work\n").toList ++
          sshConfigFragment "Personal".toList "github.com-personal".toList
            "~/.ssh/github_personal".toList)
        (sshConfigFragment "Work".toList "github.com-work".toList "~/.ssh/github_work".toList)
      = false ∧
    ¬ "# Work profile (added by gclone)".toList ∈ split '\n'
        (("# Personal profile (added by gclone)\nHost github.com-work\n" ++
            "  Hostname github.com\n  AddKeysToAgent yes\n  UseKeychain yes\n" ++
            "  IdentityFile ~/.ssh/github_work\n").toList ++
          sshConfigFragment "Personal".toList "github.com-personal".toList
            "~/.ssh/github_personal".toList) := by
  decide

/-! ## `ensureIncludeDirective` -/

/-- C12: `ensureIncludeDirective` is idempotent: applied to the content it
produced (from any primary text, or from an absent file) it changes nothing;
and whenever the primary text already contains `Include <p>` the result is
that text itself. -/
theorem ensureIncludeDirective_idempotent (primary : Option Str) (p : Str) :
    ensureIncludeDirective (some (ensureIncludeDirective primary p)) p
      = ensureIncludeDirective primary p ∧
    (∀ t : Str, includeDirective p <:+: t → ensureIncludeDirective (some t) p = t) :=
  ⟨ensureIncludeDirective_same _ p (directive_in_result primary p),
    fun t ht => ensureIncludeDirective_same t p ht⟩

/-- Witness of C12: a primary config that already holds the directive between
other lines is returned unchanged. -/
theorem ensureIncludeDirective_idempotent_witness :
    ensureIncludeDirective (some "Host a\nInclude ~/.gclone/ssh_config\nHost b\n".toList)
        "~/.gclone/ssh_config".toList
      = "Host a\nInclude ~/.gclone/ssh_config\nHost b\n".toList :=
  (ensureIncludeDirective_idempotent none "~/.gclone/ssh_config".toList).2
    "Host a\nInclude ~/.gclone/ssh_config\nHost b\n".toList
    ((contains_iff _ _).mp (by decide))

/-- C13, evaluated on the code: a primary config whose only mention of the
directive is a commented-out line is left as it is, so the result has no line
that is exactly `Include ~/.gclone/ssh_config`; the same happens when the file
includes a longer path that starts with the include path. -/
theorem ensureIncludeDirective_commented_not_added :
    ensureIncludeDirective (some "# Include ~/.gclone/ssh_config\nHost foo\n".toList)
        "~/.gclone/ssh_config".toList
      = "# Include ~/.gclone/ssh_config\nHost foo\n".toList ∧
    ¬ includeDirective "~/.gclone/ssh_config".toList ∈
      split '\n' (ensureIncludeDirective
        (some "# Include ~/.gclone/ssh_config\nHost foo\n".toList)
        "~/.gclone/ssh_config".toList) ∧
    ¬ includeDirective "~/.gclone/ssh_config".toList ∈
      split '\n' (ensureIncludeDirective
        (some "Include ~/.gclone/ssh_config.bak\nHost foo\n".toList)
        "~/.gclone/ssh_config".toList) := by
  decide

/-- C14: for every primary text `t` and include path `p`, the result is the
join of a list of lines obtained from the lines of `t` by inserting copies of
the line `Include <p>`: every line of `t` is there, unchanged and in order.
Joining the lines of `t` gives `t` back; when `t` does not contain the
directive, deleting the lines equal to the directive from that list gives
the lines of `t`; and when `p` has no line feed that list is the list of the
lines of the result. -/
theorem ensureIncludeDirective_preserves_lines (t p : Str) :
    ∃ newLines : List Str,
      ensureIncludeDirective (some t) p = join "\n".toList newLines ∧
      Inserted (includeDirective p) (split '\n' t) newLines ∧
      join "\n".toList (split '\n' t) = t ∧
      (¬ includeDirective p <:+: t →
        newLines.filter (fun l => l != includeDirective p) = split '\n' t) ∧
      ('\n' ∉ p → split '\n' (ensureIncludeDirective (some t) p) = newLines) := by
  have hjs : join "\n".toList (split '\n' t) = t := join_split '\n' t
  by_cases hc : includeDirective p <:+: t
  · refine ⟨split '\n' t, ?_, Inserted.same _ _, hjs, fun h => absurd hc h, fun _ => ?_⟩
    · rw [ensureIncludeDirective_same t p hc, hjs]
    · rw [ensureIncludeDirective_same t p hc]
  · have hnm : includeDirective p ∉ split '\n' t := fun hm => hc (split_mem_part _ _ _ hm)
    have hins : Inserted (includeDirective p) (split '\n' t)
        (if (includeLoop (includeDirective p) 0 false (split '\n' t)).2 = true
          then (includeLoop (includeDirective p) 0 false (split '\n' t)).1
          else includeDirective p :: (includeLoop (includeDirective p) 0 false (split '\n' t)).1) := by
      split_ifs
      · exact includeLoop_inserted _ _ _ _
      · exact Inserted.ins (includeLoop_inserted _ _ _ _)
    refine ⟨_, ensureIncludeDirective_new t p hc, hins, hjs, fun _ => hins.filter_eq hnm, ?_⟩
    intro hp
    rw [ensureIncludeDirective_new t p hc]
    have e : ("\n".toList : Str) = ['\n'] := rfl
    rw [e]
    apply split_join '\n' _ (hins.ne_nil (split_ne_nil _ _))
    intro l hl
    rcases hins.mem hl with h1 | h1
    · rw [h1]
      simp only [includeDirective, List.mem_append, not_or]
      exact ⟨by decide, hp⟩
    · exact split_mem_no_sep '\n' t l h1

/-- Witness of C14: a primary config with a comment and a host block, not
containing the directive. -/
theorem ensureIncludeDirective_preserves_lines_witness :
    ∃ newLines : List Str,
      ensureIncludeDirective (some "# my hosts\nHost foo\n  Hostname foo.com\n".toList)
          "~/.gclone/ssh_config".toList = join "\n".toList newLines ∧
      newLines.filter (fun l => l != includeDirective "~/.gclone/ssh_config".toList)
        = split '\n' "# my hosts\nHost foo\n  Hostname foo.com\n".toList ∧
      split '\n' (ensureIncludeDirective
          (some "# my hosts\nHost foo\n  Hostname foo.com\n".toList)
          "~/.gclone/ssh_config".toList) = newLines := by
  obtain ⟨newLines, h1, _, _, h4, h5⟩ := ensureIncludeDirective_preserves_lines
    "# my hosts\nHost foo\n  Hostname foo.com\n".toList "~/.gclone/ssh_config".toList
  exact ⟨newLines, h1, h4 (by rw [← contains_iff]; decide), h5 (by decide)⟩

/-- C15, evaluated on the code: a primary config with two separate runs of
`Include` lines, not containing the directive, gets the directive after each
run: the result has two more lines than the text and two lines equal to
`Include ~/.gclone/ssh_config`. -/
theorem ensureIncludeDirective_adds_two_lines :
    contains "Include a\nHost x\nInclude b\nHost y\n".toList
        (includeDirective "~/.gclone/ssh_config".toList) = false ∧
    ensureIncludeDirective (some "Include a\nHost x\nInclude b\nHost y\n".toList)
        "~/.gclone/ssh_config".toList
      = ("Include a\nInclude ~/.gclone/ssh_config\nHost x\nInclude b\n" ++
          "Include ~/.gclone/ssh_config\nHost y\n").toList ∧
    (split '\n' (ensureIncludeDirective (some "Include a\nHost x\nInclude b\nHost y\n".toList)
        "~/.gclone/ssh_config".toList)).length
      = (split '\n' "Include a\nHost x\nInclude b\nHost y\n".toList).length + 2 ∧
    ((split '\n' (ensureIncludeDirective (some "Include a\nHost x\nInclude b\nHost y\n".toList)
        "~/.gclone/ssh_config".toList)).filter
      (fun l => l == includeDirective "~/.gclone/ssh_config".toList)).length = 2 := by
  decide

/-- C16, evaluated on the code: in `Include a\nInclude b` (no final line feed)
the `Include` lines form one contiguous run and the directive `Include c` does
not occur, yet the directive is not put after `Include b`, the last line of
the run: it becomes the first line of the file.  The same text with a final
line feed gets the directive right after `Include b`. -/
theorem ensureIncludeDirective_run_at_end :
    contains "Include a\nInclude b".toList (includeDirective "c".toList) = false ∧
    (∀ l ∈ split '\n' "Include a\nInclude b".toList, isIncludeLine l = true) ∧
    ensureIncludeDirective (some "Include a\nInclude b".toList) "c".toList
      = "Include c\nInclude a\nInclude b".toList ∧
    ensureIncludeDirective (some "Include a\nInclude b".toList) "c".toList
      ≠ "Include a\nInclude b\nInclude c".toList ∧
    ensureIncludeDirective (some "Include a\nInclude b\n".toList) "c".toList
      = "Include a\nInclude b\nInclude c\n".toList := by
  decide

/-- The loop on a run of `Include` lines that is followed by a further line:
for every primary text that does not contain the directive
and whose lines are `pre ++ run ++ q :: post`, where `run` is a non-empty run
of `Include` lines, no line of `pre` or of `q :: post` is an `Include` line
(so the run is the only one and at least one line follows it), the result is
the join of `pre'`, the run, the directive and `q :: post`: the directive is
the line right after the last line of the run and before what followed it;
`pre'` is `pre` with at most copies of the directive inserted.  In particular
`Include a\nInclude b\nHost foo\n  Hostname foo.com\n` with `Include c` gives
`Include a\nInclude b\nInclude c\nHost foo\n  Hostname foo.com\n`. -/
theorem ensureIncludeDirective_after_run (t p : Str) (pre run : List Str) (q : Str)
    (post : List Str) (hnc : ¬ includeDirective p <:+: t)
    (hsplit : split '\n' t = pre ++ run ++ q :: post)
    (hpre : ∀ l ∈ pre, isIncludeLine l = false) (hne : run ≠ [])
    (hrun : ∀ l ∈ run, isIncludeLine l = true)
    (hpost : ∀ l ∈ q :: post, isIncludeLine l = false) :
    (∃ pre' : List Str, Inserted (includeDirective p) pre pre' ∧
      ensureIncludeDirective (some t) p
        = join "\n".toList (pre' ++ run ++ includeDirective p :: q :: post)) ∧
    ensureIncludeDirective (some "Include a\nInclude b\nHost foo\n  Hostname foo.com\n".toList)
        "c".toList
      = "Include a\nInclude b\nInclude c\nHost foo\n  Hostname foo.com\n".toList := by
  refine ⟨⟨(includeLoop (includeDirective p) 0 false pre).1, includeLoop_inserted _ _ _ _, ?_⟩,
    by decide⟩
  have hloop : includeLoop (includeDirective p) 0 false (split '\n' t)
      = ((includeLoop (includeDirective p) 0 false pre).1 ++ run ++
          includeDirective p :: q :: post, true) := by
    rw [hsplit, List.append_assoc, includeLoop_append_plain _ _ _ _ _ hpre,
      includeLoop_run _ _ _ run q post hne hrun (hpost q (List.mem_cons_self _ _)),
      includeLoop_added_plain _ _ _ hpost]
    simp only [List.append_assoc]
  rw [ensureIncludeDirective_new t p hnc, hloop]
  simp only [if_true]

/-- An instance of `ensureIncludeDirective_after_run`: a comment, two
`Include` lines and a host block. -/
theorem ensureIncludeDirective_after_run_witness :
    ∃ pre' : List Str, Inserted (includeDirective "c".toList) ["# includes".toList] pre' ∧
      ensureIncludeDirective (some "# includes\nInclude a\nInclude b\nHost foo\n".toList)
          "c".toList
        = join "\n".toList (pre' ++ ["Include a".toList, "Include b".toList] ++
            includeDirective "c".toList :: "Host foo".toList :: [[]]) :=
  (ensureIncludeDirective_after_run "# includes\nInclude a\nInclude b\nHost foo\n".toList
    "c".toList ["# includes".toList] ["Include a".toList, "Include b".toList] "Host foo".toList
    [[]] (by rw [← contains_iff]; decide) (by decide) (by decide) (by decide) (by decide)
    (by decide)).1

/-- C17, evaluated on the code: a primary config with no `Include` line whose
comment mentions the directive is left unchanged, so the directive is not
inserted before `Host foo`, the first line after the first that is neither
blank nor a comment. -/
theorem ensureIncludeDirective_comment_mention :
    (∀ l ∈ split '\n' "# was: Include ~/.gclone/ssh_config\n\nHost foo\n".toList,
      isIncludeLine l = false) ∧
    ensureIncludeDirective (some "# was: Include ~/.gclone/ssh_config\n\nHost foo\n".toList)
        "~/.gclone/ssh_config".toList
      = "# was: Include ~/.gclone/ssh_config\n\nHost foo\n".toList ∧
    ensureIncludeDirective (some "# was: Include ~/.gclone/ssh_config\n\nHost foo\n".toList)
        "~/.gclone/ssh_config".toList
      ≠ ("# was: Include ~/.gclone/ssh_config\n\nInclude ~/.gclone/ssh_config\n" ++
          "Host foo\n").toList := by
  decide

/-- The loop on a text without `Include` lines: for every primary text that
does not contain the directive
and has no `Include` line, the directive is inserted right before the first
line, other than the very first line of the file, that is neither blank nor a
`#` comment; when there is no such line the directive becomes the very first
line.  An empty primary file and a primary file that does not exist both
become `Include <includePath>` followed by one line feed. -/
theorem ensureIncludeDirective_no_include (t p : Str)
    (hnc : ¬ includeDirective p <:+: t)
    (hni : ∀ l ∈ split '\n' t, isIncludeLine l = false) :
    (∀ (l0 : Str) (pre : List Str) (s : Str) (post : List Str),
      split '\n' t = l0 :: (pre ++ s :: post) →
      (∀ l ∈ pre, isBlankOrComment l = true) → isBlankOrComment s = false →
      ensureIncludeDirective (some t) p
        = join "\n".toList (l0 :: (pre ++ includeDirective p :: s :: post))) ∧
    (∀ (l0 : Str) (rest : List Str), split '\n' t = l0 :: rest →
      (∀ l ∈ rest, isBlankOrComment l = true) →
      ensureIncludeDirective (some t) p = join "\n".toList (includeDirective p :: l0 :: rest)) ∧
    ensureIncludeDirective (some []) p = includeDirective p ++ "\n".toList ∧
    ensureIncludeDirective none p = includeDirective p ++ "\n".toList := by
  refine ⟨?_, ?_, ?_, rfl⟩
  · intro l0 pre s post hsplit hpre hs
    rw [hsplit] at hni
    have hl0 := hni l0 (List.mem_cons_self _ _)
    have hsn : isIncludeLine s = false :=
      hni s (List.mem_cons_of_mem _ (List.mem_append_right _ (List.mem_cons_self _ _)))
    have hpostn : ∀ l ∈ post, isIncludeLine l = false := fun l hl =>
      hni l (List.mem_cons_of_mem _
        (List.mem_append_right _ (List.mem_cons_of_mem _ hl)))
    have hpren : ∀ l ∈ pre, isIncludeLine l = false := fun l hl =>
      blankOrComment_not_include l (hpre l hl)
    have hloop : includeLoop (includeDirective p) 0 false (split '\n' t)
        = (l0 :: (pre ++ includeDirective p :: s :: post), true) := by
      rw [hsplit, includeLoop_pass _ 0 false l0 _ hl0 (Or.inr (Or.inl rfl)),
        includeLoop_append_plain _ _ _ _ _ hpren, includeLoop_blank _ _ _ hpre,
        includeLoop_insert _ _ s post hsn (by omega) hs,
        includeLoop_added_plain _ _ _ hpostn]
    rw [ensureIncludeDirective_new t p hnc, hloop]
    simp only [if_true]
  · intro l0 rest hsplit hrest
    rw [hsplit] at hni
    have hl0 := hni l0 (List.mem_cons_self _ _)
    have hloop : includeLoop (includeDirective p) 0 false (split '\n' t)
        = (l0 :: rest, false) := by
      rw [hsplit, includeLoop_pass _ 0 false l0 _ hl0 (Or.inr (Or.inl rfl)),
        includeLoop_blank _ _ _ hrest]
    rw [ensureIncludeDirective_new t p hnc, hloop]
    simp only [Bool.false_eq_true, if_false]
  · have hc : ¬ includeDirective p <:+: ([] : Str) := by
      intro h
      have := List.eq_nil_of_infix_nil h
      simp [includeDirective] at this
    have hloop : includeLoop (includeDirective p) 0 false (split '\n' [])
        = ([[]], false) := by
      have e : split '\n' ([] : Str) = [[]] := rfl
      rw [e, includeLoop_pass _ 0 false [] [] (by decide) (Or.inr (Or.inl rfl))]
      rfl
    rw [ensureIncludeDirective_new [] p hc, hloop]
    simp only [Bool.false_eq_true, if_false, join, List.append_nil]

/-- An instance of `ensureIncludeDirective_no_include`: a comment line, a
blank line and a host block. -/
theorem ensureIncludeDirective_no_include_witness :
    ensureIncludeDirective (some "# my hosts\n\nHost foo\n  Hostname foo.com\n".toList)
        "~/.gclone/ssh_config".toList
      = join "\n".toList ("# my hosts".toList :: ([[]] ++
          includeDirective "~/.gclone/ssh_config".toList :: "Host foo".toList ::
            ["  Hostname foo.com".toList, []])) :=
  (ensureIncludeDirective_no_include "# my hosts\n\nHost foo\n  Hostname foo.com\n".toList
    "~/.gclone/ssh_config".toList (by rw [← contains_iff]; decide) (by decide)).1
    "# my hosts".toList [[]] "Host foo".toList ["  Hostname foo.com".toList, []]
    (by decide) (by decide) (by decide)

/-- C18, evaluated on the code: a primary config with no `Include` line whose
first line is `Host foo` gets the directive as its second line, inside the
host block: the line before the directive, `Host foo`, is neither blank nor a
comment. -/
theorem ensureIncludeDirective_after_first_line :
    (∀ l ∈ split '\n' "Host foo\n  Hostname foo.com\n".toList, isIncludeLine l = false) ∧
    ensureIncludeDirective (some "Host foo\n  Hostname foo.com\n".toList)
        "~/.gclone/ssh_config".toList
      = "Host foo\nInclude ~/.gclone/ssh_config\n  Hostname foo.com\n".toList ∧
    split '\n' (ensureIncludeDirective (some "Host foo\n  Hostname foo.com\n".toList)
        "~/.gclone/ssh_config".toList)
      = ["Host foo".toList, includeDirective "~/.gclone/ssh_config".toList,
          "  Hostname foo.com".toList, []] ∧
    isBlankOrComment "Host foo".toList = false := by
  decide

/-! ## `CloneRepository` and `GetRepositoryName` -/

/-- C20, evaluated on the code: for `git@github.com:widgets.git`, a path with
no `/`, and no destination, `CloneRepository` splits the whole URL at `/` and
applies the git configs in `git@github.com-work:widgets` (the transformed
URL without `.git`), while `GetRepositoryName` gives `widgets` for the URL and
for the transformed URL; for `git@github.com:acme/widgets.git` both give
`widgets`. -/
theorem CloneRepository_repoPath_without_slash :
    CloneRepository_repoPath "git@github.com:widgets.git".toList []
        (some ⟨"Work".toList, "github.com-work".toList, [],
          [("user.email".toList, "me@acme.com".toList)]⟩)
      = some "git@github.com-work:widgets".toList ∧
    GetRepositoryName "git@github.com:widgets.git".toList = "widgets".toList ∧
    GetRepositoryName "git@github.com-work:widgets.git".toList = "widgets".toList ∧
    CloneRepository_repoPath "git@github.com:widgets.git".toList []
        (some ⟨"Work".toList, "github.com-work".toList, [],
          [("user.email".toList, "me@acme.com".toList)]⟩)
      ≠ some (GetRepositoryName "git@github.com:widgets.git".toList) ∧
    CloneRepository_repoPath "git@github.com:acme/widgets.git".toList []
        (some ⟨"Work".toList, "github.com-work".toList, [],
          [("user.email".toList, "me@acme.com".toList)]⟩)
      = some (GetRepositoryName "git@github.com:acme/widgets.git".toList) := by
  decide

/-! ## `NormalizeURL` -/

/-- C21: for every string `s`, `NormalizeURL("git@" + s) = s`; every URL that
does not begin with `git@` is returned unmodified; consequently, when `s`
does not begin with `git@`, `DetectProfileForURL` matches the patterns against
the same text for `git@` + `s` and for `s`, and returns the same result for
both. -/
theorem NormalizeURL_strips_git_user (s url : Str) (profiles : List (Str × Profile)) :
    NormalizeURL ("git@".toList ++ s) = s ∧
    (hasPrefix url "git@".toList = false → NormalizeURL url = url) ∧
    (hasPrefix s "git@".toList = false →
      NormalizeURL ("git@".toList ++ s) = NormalizeURL s ∧
      DetectProfileForURL ("git@".toList ++ s) profiles = DetectProfileForURL s profiles) := by
  have hgit : NormalizeURL ("git@".toList ++ s) = s := by
    have e : ("git@".toList ++ s : Str) = 'g' :: 'i' :: 't' :: '@' :: s := rfl
    have e2 : ("git@".toList : Str) = ['g', 'i', 't', '@'] := rfl
    rw [e]
    simp [NormalizeURL, splitN2, hasPrefix, e2, List.takeWhile, List.dropWhile]
  have hother : ∀ u : Str, hasPrefix u "git@".toList = false → NormalizeURL u = u := by
    intro u hu
    simp only [NormalizeURL, hu, Bool.false_eq_true, if_false]
  refine ⟨hgit, hother url, fun hs => ?_⟩
  have hn : NormalizeURL ("git@".toList ++ s) = NormalizeURL s := by
    rw [hgit, hother s hs]
  exact ⟨hn, by unfold DetectProfileForURL; rw [hn]⟩

/-- Witness of C21: `github.com:acme/widgets.git` with and without `git@`. -/
theorem NormalizeURL_strips_git_user_witness :
    NormalizeURL "https://github.com/acme/widgets".toList = "https://github.com/acme/widgets".toList ∧
    DetectProfileForURL ("git@".toList ++ "github.com:acme/widgets.git".toList)
        [("work".toList, ⟨[], [], ["github.com:acme".toList], []⟩)]
      = DetectProfileForURL "github.com:acme/widgets.git".toList
        [("work".toList, ⟨[], [], ["github.com:acme".toList], []⟩)] :=
  ⟨(NormalizeURL_strips_git_user "github.com:acme/widgets.git".toList
      "https://github.com/acme/widgets".toList
      [("work".toList, ⟨[], [], ["github.com:acme".toList], []⟩)]).2.1 (by decide),
    ((NormalizeURL_strips_git_user "github.com:acme/widgets.git".toList
      "https://github.com/acme/widgets".toList
      [("work".toList, ⟨[], [], ["github.com:acme".toList], []⟩)]).2.2 (by decide)).2⟩

end Gclone
